import Mathlib

set_option maxHeartbeats 2000000
set_option maxRecDepth 1000000

/-! Verification of the emoji-to-SVG replacement pass in
`src/emoji-replacements.py`.  The script reads `script.js`, applies an
ordered list of literal substring replacements (Python `str.replace`),
four `re.sub` calls whose patterns are literal strings (the only regex
metacharacters, `\.` and `\?`, are escapes of literal characters), a
final catch-all replacement of the remaining `⚙️` occurrences, and
writes the buffer back.  Documents are modelled as `List Char`
(Python `str` is a sequence of code points).  `replaceAll` mirrors
Python `str.replace` (leftmost, non-overlapping, global) and
`countOccs` mirrors Python `str.count` (leftmost, non-overlapping),
both for the nonempty patterns this script uses; `re.sub` with a
literal pattern has the same leftmost non-overlapping semantics.
Both are written with a fuel argument (the fuel is the length of the
scanned list) so that they are structural recursions the kernel can
evaluate on concrete inputs. -/

/-- Worker for `replaceAll`: `fuel` bounds the length of the scanned list.
If the (nonempty) pattern `p` is a prefix of the buffer, emit `r` and
continue after the matched occurrence, else keep one character and move on.
This is Python `str.replace` restricted to nonempty patterns (every pattern
in the script is nonempty). -/
def repGo (p r : List Char) : Nat → List Char → List Char
  | _, [] => []
  | 0, s => s
  | fuel+1, c :: cs =>
    if p.isPrefixOf (c :: cs) ∧ p ≠ [] then
      r ++ repGo p r fuel (List.drop p.length (c :: cs))
    else
      c :: repGo p r fuel cs

/-- Python `content.replace(p, r)` for the nonempty patterns used by the
script (and likewise `re.sub` with a literal pattern). -/
def replaceAll (p r s : List Char) : List Char := repGo p r s.length s

/-- Worker for `countOccs`, same recursion structure as `repGo`. -/
def cntGo (p : List Char) : Nat → List Char → Nat
  | _, [] => 0
  | 0, _ => 0
  | fuel+1, c :: cs =>
    if p.isPrefixOf (c :: cs) ∧ p ≠ [] then
      1 + cntGo p fuel (List.drop p.length (c :: cs))
    else
      cntGo p fuel cs

/-- Python `content.count(p)` (non-overlapping, leftmost) for nonempty `p`. -/
def countOccs (p s : List Char) : Nat := cntGo p s.length s

/-- The generic replacement table of the script (source lines 19-70):
each emoji literal paired with its `<img>` markup string. -/
def replacements : List (List Char × List Char) := [
  ("🔗".data, "<img src=\"icons/misc/link.svg\" alt=\"\" width=\"14\" height=\"14\" style=\"vertical-align: middle;\">".data),
  ("📌".data, "<img src=\"icons/status/pin.svg\" alt=\"\" width=\"14\" height=\"14\" style=\"vertical-align: middle;\">".data),
  ("💾".data, "<img src=\"icons/actions/save.svg\" alt=\"\" width=\"14\" height=\"14\" style=\"vertical-align: middle;\">".data),
  ("📥".data, "<img src=\"icons/actions/download.svg\" alt=\"\" width=\"14\" height=\"14\" style=\"vertical-align: middle;\">".data),
  ("📊".data, "<img src=\"icons/misc/chart-line-up.svg\" alt=\"\" width=\"14\" height=\"14\" style=\"vertical-align: middle;\">".data),
  ("📈".data, "<img src=\"icons/misc/chart-line-up.svg\" alt=\"\" width=\"14\" height=\"14\" style=\"vertical-align: middle;\">".data),
  ("📉".data, "<img src=\"icons/misc/chart-line-down.svg\" alt=\"\" width=\"14\" height=\"14\" style=\"vertical-align: middle;\">".data),
  ("💡".data, "<img src=\"icons/misc/lightbulb.svg\" alt=\"\" width=\"14\" height=\"14\" style=\"vertical-align: middle;\">".data),
  ("📂".data, "<img src=\"icons/misc/folder.svg\" alt=\"\" width=\"14\" height=\"14\" style=\"vertical-align: middle;\">".data),
  ("📋".data, "<img src=\"icons/misc/checklist.svg\" alt=\"\" width=\"14\" height=\"14\" style=\"vertical-align: middle;\">".data),
  ("🧮".data, "<img src=\"icons/misc/calculator.svg\" alt=\"\" width=\"14\" height=\"14\" style=\"vertical-align: middle;\">".data),
  ("🎯".data, "<img src=\"icons/misc/gameplay.svg\" alt=\"\" width=\"14\" height=\"14\" style=\"vertical-align: middle;\">".data),
  ("⚔️".data, "<img src=\"icons/misc/combat.svg\" alt=\"\" width=\"14\" height=\"14\" style=\"vertical-align: middle;\">".data),
  ("✏️".data, "<img src=\"icons/actions/pencil.svg\" alt=\"\" width=\"14\" height=\"14\" style=\"vertical-align: middle;\">".data),
  ("🗑️".data, "<img src=\"icons/actions/trash.svg\" alt=\"\" width=\"14\" height=\"14\" style=\"vertical-align: middle;\">".data),
  ("✨".data, "<img src=\"icons/misc/sparkles.svg\" alt=\"\" width=\"14\" height=\"14\" style=\"vertical-align: middle;\">".data),
  ("📍".data, "<img src=\"icons/story/location.svg\" alt=\"\" width=\"14\" height=\"14\" style=\"vertical-align: middle;\">".data),
  ("👥".data, "<img src=\"icons/misc/user.svg\" alt=\"\" width=\"14\" height=\"14\" style=\"vertical-align: middle;\">".data),
  ("⏱️".data, "<img src=\"icons/misc/calendar.svg\" alt=\"\" width=\"14\" height=\"14\" style=\"vertical-align: middle;\">".data),
  ("💭".data, "<img src=\"icons/misc/thought-bubble.svg\" alt=\"\" width=\"14\" height=\"14\" style=\"vertical-align: middle;\">".data),
  ("➕".data, "<img src=\"icons/actions/add.svg\" alt=\"\" width=\"14\" height=\"14\" style=\"vertical-align: middle;\">".data),
  ("➖".data, "<img src=\"icons/misc/subtract.svg\" alt=\"\" width=\"14\" height=\"14\" style=\"vertical-align: middle;\">".data),
  ("⚖️".data, "<img src=\"icons/misc/scales-balance.svg\" alt=\"\" width=\"16\" height=\"16\" style=\"vertical-align: middle;\">".data),
  ("🖥️".data, "<img src=\"icons/misc/ui.svg\" alt=\"\" width=\"14\" height=\"14\" style=\"vertical-align: middle;\">".data),
  ("⚛️".data, "<img src=\"icons/misc/physics.svg\" alt=\"\" width=\"14\" height=\"14\" style=\"vertical-align: middle;\">".data)]

/-- The dual-meaning mechanics symbol `⚙️` (U+2699 U+FE0F). -/
def gearSym : List Char := "⚙️".data

/-- The mechanics markup inserted by the catch-all replacement
(source line 109). -/
def mechMarkup : List Char :=
  "<img src=\"icons/navigation/mechanics.svg\" alt=\"\" width=\"14\" height=\"14\" style=\"vertical-align: middle;\">".data

/-- Pattern of the first constrained `re.sub` (source line 82): the literal
string the regex denotes. -/
def iconPat : List Char := "icon: '⚙️'".data

/-- Replacement of the first constrained `re.sub` (source line 83), after
Python's template processing: `\"` in a replacement template is an unknown
non-letter escape and is kept verbatim (backslash and quote), so the
inserted markup carries literal backslashes. -/
def iconRep : List Char :=
  "icon: '<img src=\\\"icons/navigation/mechanics.svg\\\" alt=\\\"\\\" width=\\\"14\\\" height=\\\"14\\\" style=\\\"vertical-align: middle;\\\">'".data

/-- Pattern of the second constrained `re.sub` (source line 88). -/
def mechanicPat : List Char := "mechanic: '⚙️ Mechanics'".data

/-- Replacement of the second constrained `re.sub` (source line 89). -/
def mechanicRep : List Char :=
  "mechanic: '<img src=\\\"icons/navigation/mechanics.svg\\\" alt=\\\"\\\" width=\\\"14\\\" height=\\\"14\\\" style=\\\"vertical-align: middle;\\\"> Mechanics'".data

/-- Pattern of the third constrained `re.sub` (source line 94). -/
def instancePat : List Char := ": '⚙️ Instance</span>'".data

/-- Replacement of the third constrained `re.sub` (source line 95). -/
def instanceRep : List Char :=
  ": '<img src=\\\"icons/navigation/mechanics.svg\\\" alt=\\\"\\\" width=\\\"14\\\" height=\\\"14\\\" style=\\\"vertical-align: middle;\\\"> Instance</span>'".data

/-- Pattern of the fourth constrained `re.sub` (source line 101): the regex
escapes `\.` and `\?` denote the literal characters. -/
def typeIconPat : List Char :=
  "const typeIcon = cls.classType === 'character' ? '🎭' : '⚙️';".data

/-- Replacement of the fourth constrained `re.sub` (source line 102). -/
def typeIconRep : List Char :=
  "const typeIcon = cls.classType === 'character' ? '🎭' : '<img src=\\\"icons/navigation/mechanics.svg\\\" alt=\\\"\\\" width=\\\"14\\\" height=\\\"14\\\" style=\\\"vertical-align: middle;\\\">';".data

/-- One iteration of the generic replacement loop (source lines 73-77):
count, and replace only when the count is positive. -/
def ruleStep (s : List Char) (pr : List Char × List Char) : List Char :=
  if 0 < countOccs pr.1 s then replaceAll pr.1 pr.2 s else s

/-- The generic replacement loop over the whole table. -/
def applyGeneric (s : List Char) : List Char := List.foldl ruleStep s replacements

/-- The four constrained `re.sub` substitutions (source lines 81-104),
applied in order. -/
def applyConstrained (s : List Char) : List Char :=
  replaceAll typeIconPat typeIconRep
    (replaceAll instancePat instanceRep
      (replaceAll mechanicPat mechanicRep
        (replaceAll iconPat iconRep s)))

/-- The catch-all step (source lines 106-110): count the remaining `⚙️`
and replace them all when any remain. -/
def applyCatchAll (s : List Char) : List Char :=
  if 0 < countOccs gearSym s then replaceAll gearSym mechMarkup s else s

/-- The whole in-memory transformation pass of the script, in source order. -/
def transform (s : List Char) : List Char :=
  applyCatchAll (applyConstrained (applyGeneric s))

/-- `original_length` (source line 15): Python `len` of a `str`, i.e. the
number of code points. -/
def originalLength (s : List Char) : Nat := s.length

/-- `new_length` (source line 117). -/
def newLength (s : List Char) : Nat := (transform s).length

/-- The signed difference the script reports (source line 119). -/
def difference (s : List Char) : Int :=
  (newLength s : Int) - (originalLength s : Int)

/-- UTF-8 size in bytes of one code point. -/
def charUtf8Size (c : Char) : Nat :=
  if c.toNat < 128 then 1
  else if c.toNat < 2048 then 2
  else if c.toNat < 65536 then 3
  else 4

/-- UTF-8 byte length of a text. -/
def utf8Length : List Char → Nat
  | [] => 0
  | c :: cs => charUtf8Size c + utf8Length cs

/-! ### Basic facts about the fueled recursions -/

theorem repGo_nil (p r : List Char) (f : Nat) : repGo p r f [] = [] := by
  cases f <;> rfl

theorem cntGo_nil (p : List Char) (f : Nat) : cntGo p f [] = 0 := by
  cases f <;> rfl

theorem repGo_congr (p r : List Char) :
    ∀ (f g : Nat) (s : List Char), s.length ≤ f → s.length ≤ g →
      repGo p r f s = repGo p r g s := by
  intro f
  induction f with
  | zero =>
    intro g s hf _
    have hs : s = [] := List.length_eq_zero.mp (Nat.le_zero.mp hf)
    subst hs
    rw [repGo_nil, repGo_nil]
  | succ n ih =>
    intro g s hf hg
    cases s with
    | nil => rw [repGo_nil, repGo_nil]
    | cons c cs =>
      cases g with
      | zero => simp at hg
      | succ m =>
        show repGo p r (n+1) (c :: cs) = repGo p r (m+1) (c :: cs)
        simp only [repGo]
        by_cases h : p.isPrefixOf (c :: cs) ∧ p ≠ []
        · rw [if_pos h, if_pos h]
          have hp : 1 ≤ p.length := by
            cases hq : p with
            | nil => exact absurd hq h.2
            | cons x xs => simp
          have hlen : (List.drop p.length (c :: cs)).length ≤ n := by
            rw [List.length_drop]
            simp only [List.length_cons] at hf ⊢
            omega
          have hlen2 : (List.drop p.length (c :: cs)).length ≤ m := by
            rw [List.length_drop]
            simp only [List.length_cons] at hg ⊢
            omega
          exact congrArg (r ++ ·) (ih m _ hlen hlen2)
        · rw [if_neg h, if_neg h]
          have h1 : cs.length ≤ n := by simp only [List.length_cons] at hf; omega
          have h2 : cs.length ≤ m := by simp only [List.length_cons] at hg; omega
          exact congrArg (c :: ·) (ih m _ h1 h2)

theorem cntGo_congr (p : List Char) :
    ∀ (f g : Nat) (s : List Char), s.length ≤ f → s.length ≤ g →
      cntGo p f s = cntGo p g s := by
  intro f
  induction f with
  | zero =>
    intro g s hf _
    have hs : s = [] := List.length_eq_zero.mp (Nat.le_zero.mp hf)
    subst hs
    rw [cntGo_nil, cntGo_nil]
  | succ n ih =>
    intro g s hf hg
    cases s with
    | nil => rw [cntGo_nil, cntGo_nil]
    | cons c cs =>
      cases g with
      | zero => simp at hg
      | succ m =>
        show cntGo p (n+1) (c :: cs) = cntGo p (m+1) (c :: cs)
        simp only [cntGo]
        by_cases h : p.isPrefixOf (c :: cs) ∧ p ≠ []
        · rw [if_pos h, if_pos h]
          have hp : 1 ≤ p.length := by
            cases hq : p with
            | nil => exact absurd hq h.2
            | cons x xs => simp
          have hlen : (List.drop p.length (c :: cs)).length ≤ n := by
            rw [List.length_drop]
            simp only [List.length_cons] at hf ⊢
            omega
          have hlen2 : (List.drop p.length (c :: cs)).length ≤ m := by
            rw [List.length_drop]
            simp only [List.length_cons] at hg ⊢
            omega
          exact congrArg (1 + ·) (ih m _ hlen hlen2)
        · rw [if_neg h, if_neg h]
          have h1 : cs.length ≤ n := by simp only [List.length_cons] at hf; omega
          have h2 : cs.length ≤ m := by simp only [List.length_cons] at hg; omega
          exact ih m _ h1 h2

theorem replaceAll_nil (p r : List Char) : replaceAll p r [] = [] := rfl

theorem countOccs_nil (p : List Char) : countOccs p [] = 0 := rfl

theorem replaceAll_cons (p r : List Char) (c : Char) (cs : List Char) :
    replaceAll p r (c :: cs) =
      if p.isPrefixOf (c :: cs) ∧ p ≠ [] then
        r ++ replaceAll p r (List.drop p.length (c :: cs))
      else c :: replaceAll p r cs := by
  show repGo p r (cs.length + 1) (c :: cs) = _
  simp only [repGo]
  by_cases h : p.isPrefixOf (c :: cs) ∧ p ≠ []
  · rw [if_pos h, if_pos h]
    have hp : 1 ≤ p.length := by
      cases hq : p with
      | nil => exact absurd hq h.2
      | cons x xs => simp
    have hb : (List.drop p.length (c :: cs)).length ≤ cs.length := by
      rw [List.length_drop]; simp only [List.length_cons]; omega
    exact congrArg (r ++ ·) (repGo_congr p r _ _ _ hb (Nat.le_refl _))
  · rw [if_neg h, if_neg h]
    rfl

theorem countOccs_cons (p : List Char) (c : Char) (cs : List Char) :
    countOccs p (c :: cs) =
      if p.isPrefixOf (c :: cs) ∧ p ≠ [] then
        1 + countOccs p (List.drop p.length (c :: cs))
      else countOccs p cs := by
  show cntGo p (cs.length + 1) (c :: cs) = _
  simp only [cntGo]
  by_cases h : p.isPrefixOf (c :: cs) ∧ p ≠ []
  · rw [if_pos h, if_pos h]
    have hp : 1 ≤ p.length := by
      cases hq : p with
      | nil => exact absurd hq h.2
      | cons x xs => simp
    have hb : (List.drop p.length (c :: cs)).length ≤ cs.length := by
      rw [List.length_drop]; simp only [List.length_cons]; omega
    exact congrArg (1 + ·) (cntGo_congr p _ _ _ hb (Nat.le_refl _))
  · rw [if_neg h, if_neg h]
    rfl

/-- Strong induction on the length of a character list. -/
theorem listStrongInd {P : List Char → Prop}
    (step : ∀ s : List Char, (∀ t : List Char, t.length < s.length → P t) → P s)
    (s : List Char) : P s := by
  suffices h : ∀ (n : Nat) (t : List Char), t.length ≤ n → P t from h s.length s (Nat.le_refl _)
  intro n
  induction n with
  | zero => exact fun t ht => step t (fun u hu => absurd (Nat.lt_of_lt_of_le hu ht) (Nat.not_lt_zero _))
  | succ n ih => exact fun t ht => step t (fun u hu => ih u (by omega))

/-- The Bool prefix test agrees with the `IsPrefix` relation. -/
theorem prefixOf_bridge {p s : List Char} : p.isPrefixOf s = true ↔ p <+: s :=
  List.isPrefixOf_iff_prefix

/-! ### Peeling and transfer lemmas for `replaceAll` and `countOccs` -/

theorem mem_of_head?_eq {x : Char} {l : List Char} (h : l.head? = some x) : x ∈ l := by
  cases l with
  | nil => exact absurd h (by simp)
  | cons a l =>
    have hax : a = x := by simpa using h
    rw [← hax]
    exact List.mem_cons_self a l

theorem head?_eq_of_isPre {w v : List Char} (h : w <+: v) (hw : w ≠ []) : v.head? = w.head? := by
  obtain ⟨t, rfl⟩ := h
  exact List.head?_append_of_ne_nil w hw

theorem prefix_append_cases {a b c : List Char} (h : a <+: b ++ c) : a <+: b ∨ b <+: a := by
  rcases Nat.le_total a.length b.length with hl | hl
  · exact Or.inl (List.prefix_of_prefix_length_le h (List.prefix_append b c) hl)
  · exact Or.inr (List.prefix_of_prefix_length_le (List.prefix_append b c) h hl)

theorem countOccs_append_of_headNot {qh : Char} {q' : List Char} :
    ∀ {u : List Char}, qh ∉ u → ∀ t, countOccs (qh :: q') (u ++ t) = countOccs (qh :: q') t := by
  intro u
  induction u with
  | nil => intro _ t; rfl
  | cons a u ih =>
    intro h t
    rw [List.cons_append, countOccs_cons, if_neg]
    · exact ih (fun hm => h (List.mem_cons_of_mem a hm)) t
    · rintro ⟨h1, -⟩
      have hpre := prefixOf_bridge.mp h1
      have hqa : qh = a := (List.cons_prefix_cons.mp hpre).1
      exact h (hqa ▸ List.mem_cons_self a u)

theorem replaceAll_append_of_headNot {ph : Char} {p' R : List Char} :
    ∀ {u : List Char}, ph ∉ u → ∀ t,
      replaceAll (ph :: p') R (u ++ t) = u ++ replaceAll (ph :: p') R t := by
  intro u
  induction u with
  | nil => intro _ t; rfl
  | cons a u ih =>
    intro h t
    rw [List.cons_append, replaceAll_cons, if_neg]
    · rw [List.cons_append]
      exact congrArg (a :: ·) (ih (fun hm => h (List.mem_cons_of_mem a hm)) t)
    · rintro ⟨h1, -⟩
      have hpre := prefixOf_bridge.mp h1
      have hqa : ph = a := (List.cons_prefix_cons.mp hpre).1
      exact h (hqa ▸ List.mem_cons_self a u)

theorem infix_append_disj {q Z : List Char} :
    ∀ R : List Char, q ≠ [] → (∀ a ∈ q, a ∉ R) → q <:+: R ++ Z → q <:+: Z := by
  intro R
  induction R with
  | nil => intro _ _ h; simpa using h
  | cons b R ih =>
    intro hq hd h
    rw [List.cons_append] at h
    rcases List.infix_cons_iff.mp h with hpre | hinf
    · exfalso
      cases q with
      | nil => exact hq rfl
      | cons x q' =>
        have hxb : x = b := (List.cons_prefix_cons.mp hpre).1
        exact hd x (List.mem_cons_self x q') (hxb ▸ List.mem_cons_self b R)
    · exact ih hq (fun a ha hm => hd a ha (List.mem_cons_of_mem b hm)) hinf

theorem prefix_transfer_disj {p R : List Char} (hR : R ≠ []) :
    ∀ t w : List Char, w ≠ [] → (∀ a ∈ w, a ∉ R) → w <+: replaceAll p R t → w <+: t := by
  intro t
  induction t using listStrongInd with
  | step t ih =>
    intro w hw hd hpre
    cases t with
    | nil =>
      rw [replaceAll_nil] at hpre
      exact absurd (List.prefix_nil.mp hpre) hw
    | cons c cs =>
      rw [replaceAll_cons] at hpre
      by_cases hcond : p.isPrefixOf (c :: cs) ∧ p ≠ []
      · rw [if_pos hcond] at hpre
        exfalso
        rcases prefix_append_cases hpre with h1 | h1
        · cases w with
          | nil => exact hw rfl
          | cons x w' =>
            have hh : R.head? = some x := head?_eq_of_isPre h1 (by simp)
            exact hd x (List.mem_cons_self x w') (mem_of_head?_eq hh)
        · cases hRc : R with
          | nil => exact hR hRc
          | cons r R' =>
            subst hRc
            exact hd r (List.IsPrefix.mem (List.mem_cons_self r R') h1) (List.mem_cons_self r R')
      · rw [if_neg hcond] at hpre
        cases w with
        | nil => exact absurd rfl hw
        | cons x w' =>
          obtain ⟨hxc, hw'⟩ := List.cons_prefix_cons.mp hpre
          by_cases hw'nil : w' = []
          · subst hw'nil
            exact List.cons_prefix_cons.mpr ⟨hxc, List.nil_prefix⟩
          · have hrec := ih cs (by simp) w' hw'nil
              (fun a ha => hd a (List.mem_cons_of_mem x ha)) hw'
            exact List.cons_prefix_cons.mpr ⟨hxc, hrec⟩

theorem prefix_transfer_ltFree {p R : List Char} (hRh : R.head? = some '<') :
    ∀ t w : List Char, w ≠ [] → '<' ∉ w → w <+: replaceAll p R t → w <+: t := by
  intro t
  induction t using listStrongInd with
  | step t ih =>
    intro w hw hlt hpre
    cases t with
    | nil =>
      rw [replaceAll_nil] at hpre
      exact absurd (List.prefix_nil.mp hpre) hw
    | cons c cs =>
      rw [replaceAll_cons] at hpre
      by_cases hcond : p.isPrefixOf (c :: cs) ∧ p ≠ []
      · rw [if_pos hcond] at hpre
        exfalso
        rcases prefix_append_cases hpre with h1 | h1
        · cases w with
          | nil => exact hw rfl
          | cons x w' =>
            have hh : R.head? = some x := head?_eq_of_isPre h1 (by simp)
            have hx : x = '<' := by rw [hh] at hRh; simpa using hRh
            exact hlt (hx ▸ List.mem_cons_self x w')
        · exact hlt (List.IsPrefix.mem (mem_of_head?_eq hRh) h1)
      · rw [if_neg hcond] at hpre
        cases w with
        | nil => exact absurd rfl hw
        | cons x w' =>
          obtain ⟨hxc, hw'⟩ := List.cons_prefix_cons.mp hpre
          by_cases hw'nil : w' = []
          · subst hw'nil
            exact List.cons_prefix_cons.mpr ⟨hxc, List.nil_prefix⟩
          · have hrec := ih cs (by simp) w' hw'nil
              (fun hm => hlt (List.mem_cons_of_mem x hm)) hw'
            exact List.cons_prefix_cons.mpr ⟨hxc, hrec⟩

theorem drop_ne_nil_of_lt {m' : List Char} {k : Nat} (hk : k < m'.length) : m'.drop k ≠ [] := by
  intro h
  have := congrArg List.length h
  rw [List.length_drop] at this
  simp at this
  omega

theorem prefix_transfer_suffix {p R m' : List Char} (hRlt : '<' ∈ R) (hlt : '<' ∉ m')
    (hQ : ∀ k, k < m'.length → ¬ (m'.drop k) <+: R) :
    ∀ t, ∀ k, k < m'.length → (m'.drop k) <+: replaceAll p R t → (m'.drop k) <+: t := by
  intro t
  induction t using listStrongInd with
  | step t ih =>
    intro k hk hpre
    cases t with
    | nil =>
      rw [replaceAll_nil] at hpre
      exact absurd (List.prefix_nil.mp hpre) (drop_ne_nil_of_lt hk)
    | cons c cs =>
      rw [replaceAll_cons] at hpre
      by_cases hcond : p.isPrefixOf (c :: cs) ∧ p ≠ []
      · rw [if_pos hcond] at hpre
        exfalso
        rcases prefix_append_cases hpre with h1 | h1
        · exact hQ k hk h1
        · have hin : '<' ∈ m'.drop k := List.IsPrefix.mem hRlt h1
          exact hlt (List.drop_subset k m' hin)
      · rw [if_neg hcond] at hpre
        cases hw : m'.drop k with
        | nil => exact absurd hw (drop_ne_nil_of_lt hk)
        | cons x w' =>
          rw [hw] at hpre
          obtain ⟨hxc, hw'⟩ := List.cons_prefix_cons.mp hpre
          have hw'eq : w' = m'.drop (k+1) := by
            have ht : (m'.drop k).tail = m'.drop (k+1) := List.tail_drop m' k
            rw [hw] at ht
            simpa using ht
          by_cases hk1 : k + 1 < m'.length
          · have h2 := ih cs (by simp) (k+1) hk1 (hw'eq ▸ hw')
            exact List.cons_prefix_cons.mpr ⟨hxc, hw'eq ▸ h2⟩
          · have hnil : w' = [] := by
              rw [hw'eq]
              have : m'.length ≤ k + 1 := Nat.le_of_not_lt hk1
              exact List.drop_eq_nil_of_le this
            subst hnil
            exact List.cons_prefix_cons.mpr ⟨hxc, List.nil_prefix⟩

theorem infix_transfer {p R : List Char} (hR : R ≠ []) :
    ∀ t q : List Char, q ≠ [] → (∀ a ∈ q, a ∉ R) → q <:+: replaceAll p R t → q <:+: t := by
  intro t
  induction t using listStrongInd with
  | step t ih =>
    intro q hq hd hinf
    cases t with
    | nil =>
      rw [replaceAll_nil] at hinf
      exact absurd (List.eq_nil_of_infix_nil hinf) hq
    | cons c cs =>
      rw [replaceAll_cons] at hinf
      by_cases hcond : p.isPrefixOf (c :: cs) ∧ p ≠ []
      · rw [if_pos hcond] at hinf
        have h1 : q <:+: replaceAll p R (List.drop p.length (c :: cs)) :=
          infix_append_disj R hq hd hinf
        have hp1 : 1 ≤ p.length := by
          cases hpn : p with
          | nil => exact absurd hpn hcond.2
          | cons y ys => simp
        have hlen : (List.drop p.length (c :: cs)).length < (c :: cs).length := by
          rw [List.length_drop]
          simp only [List.length_cons]
          omega
        have h2 := ih _ hlen q hq hd h1
        exact h2.trans (List.drop_suffix p.length (c :: cs)).isInfix
      · rw [if_neg hcond] at hinf
        rcases List.infix_cons_iff.mp hinf with hpre | hinf2
        · cases q with
          | nil => exact absurd rfl hq
          | cons x q' =>
            obtain ⟨hxc, hq'⟩ := List.cons_prefix_cons.mp hpre
            by_cases hq'nil : q' = []
            · subst hq'nil
              exact (List.cons_prefix_cons.mpr ⟨hxc, List.nil_prefix⟩).isInfix
            · have hrec := prefix_transfer_disj hR cs q' hq'nil
                (fun a ha => hd a (List.mem_cons_of_mem x ha)) hq'
              exact (List.cons_prefix_cons.mpr ⟨hxc, hrec⟩).isInfix
        · exact List.infix_cons (ih cs (by simp) q hq hd hinf2)

theorem replaceAll_no_self_occ {p R : List Char} (hp : p ≠ []) (hR : R ≠ [])
    (hd : ∀ a ∈ p, a ∉ R) : ∀ t, ¬ p <:+: replaceAll p R t := by
  intro t
  induction t using listStrongInd with
  | step t ih =>
    intro hinf
    cases t with
    | nil =>
      rw [replaceAll_nil] at hinf
      exact hp (List.eq_nil_of_infix_nil hinf)
    | cons c cs =>
      rw [replaceAll_cons] at hinf
      by_cases hcond : p.isPrefixOf (c :: cs) ∧ p ≠ []
      · rw [if_pos hcond] at hinf
        have h1 := infix_append_disj R hp hd hinf
        have hp1 : 1 ≤ p.length := by
          cases hpn : p with
          | nil => exact absurd hpn hcond.2
          | cons y ys => simp
        have hlen : (List.drop p.length (c :: cs)).length < (c :: cs).length := by
          rw [List.length_drop]
          simp only [List.length_cons]
          omega
        exact ih _ hlen h1
      · rw [if_neg hcond] at hinf
        rcases List.infix_cons_iff.mp hinf with hpre | hinf2
        · cases hpc : p with
          | nil => exact hp hpc
          | cons x p' =>
            subst hpc
            obtain ⟨hxc, hp'⟩ := List.cons_prefix_cons.mp hpre
            by_cases hp'nil : p' = []
            · subst hp'nil
              exact hcond ⟨prefixOf_bridge.mpr (List.cons_prefix_cons.mpr ⟨hxc, List.nil_prefix⟩),
                List.cons_ne_nil _ _⟩
            · have hrec := prefix_transfer_disj hR cs p' hp'nil
                (fun a ha => hd a (List.mem_cons_of_mem x ha)) hp'
              exact hcond ⟨prefixOf_bridge.mpr (List.cons_prefix_cons.mpr ⟨hxc, hrec⟩),
                List.cons_ne_nil _ _⟩
        · exact ih cs (by simp) hinf2

theorem replaceAll_of_no_occ {p R : List Char} :
    ∀ t, ¬ p <:+: t → replaceAll p R t = t := by
  intro t
  induction t with
  | nil => intro _; rfl
  | cons c cs ih =>
    intro h
    rw [replaceAll_cons, if_neg]
    · exact congrArg (c :: ·) (ih (fun h2 => h (List.infix_cons h2)))
    · rintro ⟨h1, -⟩
      exact h (prefixOf_bridge.mp h1).isInfix

theorem countOccs_eq_zero_iff {p : List Char} (hp : p ≠ []) :
    ∀ s, countOccs p s = 0 ↔ ¬ p <:+: s := by
  intro s
  induction s with
  | nil =>
    exact ⟨fun _ h => hp (List.eq_nil_of_infix_nil h), fun _ => rfl⟩
  | cons c cs ih =>
    rw [countOccs_cons]
    by_cases hcond : p.isPrefixOf (c :: cs) ∧ p ≠ []
    · rw [if_pos hcond]
      constructor
      · intro h; omega
      · intro h
        exact absurd (prefixOf_bridge.mp hcond.1).isInfix h
    · rw [if_neg hcond]
      rw [ih]
      constructor
      · intro h hinf
        rcases List.infix_cons_iff.mp hinf with hpre | hinf2
        · exact hcond ⟨prefixOf_bridge.mpr hpre, hp⟩
        · exact h hinf2
      · intro h hinf
        exact h (List.infix_cons hinf)

theorem countOccs_append_of_noRel {m : List Char} :
    ∀ u : List Char, (∀ k, k < u.length → ¬ (u.drop k) <+: m ∧ ¬ m <+: (u.drop k)) →
      ∀ t, countOccs m (u ++ t) = countOccs m t := by
  intro u
  induction u with
  | nil => intro _ t; rfl
  | cons b u ih =>
    intro h t
    rw [List.cons_append, countOccs_cons, if_neg]
    · refine ih (fun k hk => ?_) t
      have h2 := h (k+1) (by simpa using hk)
      simpa using h2
    · rintro ⟨h1, -⟩
      have hpre : m <+: (b :: u) ++ t := by
        rw [List.cons_append]
        exact prefixOf_bridge.mp h1
      rcases prefix_append_cases hpre with h2 | h2
      · exact (h 0 (by simp)).2 (by simpa using h2)
      · exact (h 0 (by simp)).1 (by simpa using h2)

theorem replaceAll_append_of_noRel {p R : List Char} :
    ∀ u : List Char, (∀ k, k < u.length → ¬ (u.drop k) <+: p ∧ ¬ p <+: (u.drop k)) →
      ∀ t, replaceAll p R (u ++ t) = u ++ replaceAll p R t := by
  intro u
  induction u with
  | nil => intro _ t; rfl
  | cons b u ih =>
    intro h t
    rw [List.cons_append, replaceAll_cons, if_neg]
    · rw [List.cons_append]
      refine congrArg (b :: ·) (ih (fun k hk => ?_) t)
      have h2 := h (k+1) (by simpa using hk)
      simpa using h2
    · rintro ⟨h1, -⟩
      have hpre : p <+: (b :: u) ++ t := by
        rw [List.cons_append]
        exact prefixOf_bridge.mp h1
      rcases prefix_append_cases hpre with h2 | h2
      · exact (h 0 (by simp)).2 (by simpa using h2)
      · exact (h 0 (by simp)).1 (by simpa using h2)

theorem countOccs_self_append {m : List Char} (hm : m ≠ []) :
    ∀ z, countOccs m (m ++ z) = 1 + countOccs m z := by
  intro z
  cases hme : m with
  | nil => exact absurd hme hm
  | cons x m' =>
    rw [List.cons_append, countOccs_cons, if_pos]
    · have h2 := List.drop_left (x :: m') z
      rw [List.cons_append] at h2
      rw [← hme] at h2 ⊢
      rw [h2]
    · constructor
      · refine prefixOf_bridge.mpr ⟨z, ?_⟩
        rw [List.cons_append]
      · exact List.cons_ne_nil x m'

theorem replaceAll_length (p r : List Char) :
    ∀ s, (replaceAll p r s).length + countOccs p s * p.length
        = s.length + countOccs p s * r.length := by
  intro s
  induction s using listStrongInd with
  | step s ih =>
    cases s with
    | nil => simp [replaceAll_nil, countOccs_nil]
    | cons c cs =>
      rw [replaceAll_cons, countOccs_cons]
      by_cases hcond : p.isPrefixOf (c :: cs) ∧ p ≠ []
      · rw [if_pos hcond, if_pos hcond]
        have hp1 : 1 ≤ p.length := by
          cases hpn : p with
          | nil => exact absurd hpn hcond.2
          | cons y ys => simp
        have hple : p.length ≤ cs.length + 1 := by
          have := (prefixOf_bridge.mp hcond.1).length_le
          simpa using this
        have hlen : (List.drop p.length (c :: cs)).length < (c :: cs).length := by
          rw [List.length_drop]
          simp only [List.length_cons]
          omega
        have hrec := ih _ hlen
        have hXlen : (List.drop p.length (c :: cs)).length = cs.length + 1 - p.length := by
          rw [List.length_drop]
          simp
        rw [hXlen] at hrec
        simp only [List.length_append, List.length_cons]
        generalize countOccs p (List.drop p.length (c :: cs)) = N at hrec ⊢
        generalize (replaceAll p r (List.drop p.length (c :: cs))).length = A at hrec ⊢
        have e1 : ∀ x : Nat, (1 + N) * x = x + N * x := fun x => by ring
        rw [e1, e1]
        generalize N * p.length = V at hrec ⊢
        generalize N * r.length = W at hrec ⊢
        omega
      · rw [if_neg hcond, if_neg hcond]
        have hrec := ih cs (by simp)
        simp only [List.length_cons]
        generalize countOccs p cs * p.length = V at hrec ⊢
        generalize countOccs p cs * r.length = W at hrec ⊢
        omega

theorem count_replaceAll_eq {a : Char} {p r : List Char} (hp : p ≠ [])
    (hcnt : r.count a = p.count a) :
    ∀ s, (replaceAll p r s).count a = s.count a := by
  intro s
  induction s using listStrongInd with
  | step s ih =>
    cases s with
    | nil => rfl
    | cons c cs =>
      rw [replaceAll_cons]
      by_cases hcond : p.isPrefixOf (c :: cs) ∧ p ≠ []
      · rw [if_pos hcond]
        obtain ⟨t, ht⟩ := prefixOf_bridge.mp hcond.1
        have hp1 : 1 ≤ p.length := by
          cases hpn : p with
          | nil => exact absurd hpn hcond.2
          | cons y ys => simp
        have hdrop : List.drop p.length (c :: cs) = t := by
          rw [← ht]
          exact List.drop_left p t
        have htlen : t.length < (c :: cs).length := by
          have := congrArg List.length ht
          simp only [List.length_append, List.length_cons] at this ⊢
          omega
        rw [hdrop, List.count_append, ih t htlen, ← ht, List.count_append, hcnt]
      · rw [if_neg hcond]
        have hrec := ih cs (by simp)
        simp only [List.count_cons, hrec]

/-- Replacing pattern `p` with a markup `'<' :: m'` adds exactly one markup
occurrence per pattern occurrence, when the pattern's characters are
disjoint from the markup and `'<'` occurs in the markup only at its head. -/
theorem countOccs_replaceAll_self {m' p : List Char} (hlt : '<' ∉ m') (hp : p ≠ [])
    (hd : ∀ a ∈ p, a ∉ '<' :: m') :
    ∀ s, countOccs ('<' :: m') (replaceAll p ('<' :: m') s)
        = countOccs ('<' :: m') s + countOccs p s := by
  have hltp : '<' ∉ p := fun h => hd '<' h (List.mem_cons_self _ _)
  intro s
  induction s using listStrongInd with
  | step s ih =>
    cases s with
    | nil => rfl
    | cons c cs =>
      obtain ⟨ph, p'', hpe⟩ : ∃ ph p'', p = ph :: p'' := by
        cases p with
        | nil => exact absurd rfl hp
        | cons x xs => exact ⟨x, xs, rfl⟩
      · have hphm' : ph ∉ m' := fun hm =>
          hd ph (hpe ▸ List.mem_cons_self ph p'') (List.mem_cons_of_mem _ hm)
        by_cases hcond : p.isPrefixOf (c :: cs) ∧ p ≠ []
        · rw [replaceAll_cons, if_pos hcond, countOccs_cons p, if_pos hcond]
          obtain ⟨t, ht⟩ := prefixOf_bridge.mp hcond.1
          have hdrop : List.drop p.length (c :: cs) = t := by
            rw [← ht]
            exact List.drop_left p t
          have htlen : t.length < (c :: cs).length := by
            have hlp : p.length + t.length = (c :: cs).length := by
              rw [← List.length_append, ht]
            have hp1 : 1 ≤ p.length := by
              rw [hpe]
              simp
            simp only [List.length_cons] at hlp ⊢
            omega
          rw [hdrop, countOccs_self_append (List.cons_ne_nil '<' m'), ih t htlen, ← ht,
            countOccs_append_of_headNot hltp]
          omega
        · rw [replaceAll_cons, if_neg hcond, countOccs_cons p, if_neg hcond]
          by_cases hmpre : ('<' :: m') <+: (c :: cs)
          · obtain ⟨hcl, hm'pre⟩ := List.cons_prefix_cons.mp hmpre
            obtain ⟨rest, hrest⟩ := hm'pre
            have hYeq : replaceAll p ('<' :: m') cs
                = m' ++ replaceAll p ('<' :: m') rest := by
              rw [← hrest, hpe]
              exact replaceAll_append_of_headNot hphm' rest
            have hpeel : countOccs p (m' ++ rest) = countOccs p rest := by
              rw [hpe]
              exact countOccs_append_of_headNot hphm' rest
            have hrlen : rest.length < (c :: cs).length := by
              have := congrArg List.length hrest
              simp only [List.length_append, List.length_cons] at this ⊢
              omega
            rw [hYeq, ← hcl, ← List.cons_append,
              countOccs_self_append (List.cons_ne_nil '<' m'),
              ih rest hrlen]
            rw [← hrest, ← List.cons_append, countOccs_self_append (List.cons_ne_nil '<' m'), hpeel]
            omega
          · have hnpre : ¬ ('<' :: m') <+: (c :: replaceAll p ('<' :: m') cs) := by
              intro hpre2
              obtain ⟨hcl, hm'pre⟩ := List.cons_prefix_cons.mp hpre2
              by_cases hm'nil : m' = []
              · subst hm'nil
                exact hmpre (List.cons_prefix_cons.mpr ⟨hcl, List.nil_prefix⟩)
              · have := prefix_transfer_ltFree (R := '<' :: m') rfl cs m' hm'nil hlt hm'pre
                exact hmpre (List.cons_prefix_cons.mpr ⟨hcl, this⟩)
            rw [countOccs_cons, if_neg (fun hc => hnpre (prefixOf_bridge.mp hc.1)),
              countOccs_cons ('<' :: m') c cs,
              if_neg (fun hc => hmpre (prefixOf_bridge.mp hc.1)),
              ih cs (by simp)]

/-- Preservation: replacing `p` by `R` does not change the number of
occurrences of a markup `'<' :: m'`, under non-overlap side conditions
relating the markup, the pattern and the inserted text. -/
theorem countOccs_replaceAll_pres {m' p R : List Char}
    (hlt : '<' ∉ m') (hp : p ≠ [])
    (hP : ∀ k, k < p.length → ¬ (p.drop k) <+: ('<' :: m') ∧ ¬ ('<' :: m') <+: (p.drop k))
    (hRlt : '<' ∈ R)
    (hQ : ∀ k, k < m'.length → ¬ (m'.drop k) <+: R)
    (hA : ∀ k, k < R.length → ¬ (R.drop k) <+: ('<' :: m') ∧ ¬ ('<' :: m') <+: (R.drop k))
    (hB : ∀ k, k < m'.length → ¬ (m'.drop k) <+: p ∧ ¬ p <+: (m'.drop k)) :
    ∀ s, countOccs ('<' :: m') (replaceAll p R s) = countOccs ('<' :: m') s := by
  intro s
  induction s using listStrongInd with
  | step s ih =>
    cases s with
    | nil => rfl
    | cons c cs =>
      by_cases hcond : p.isPrefixOf (c :: cs) ∧ p ≠ []
      · rw [replaceAll_cons, if_pos hcond]
        obtain ⟨t, ht⟩ := prefixOf_bridge.mp hcond.1
        have hdrop : List.drop p.length (c :: cs) = t := by
          rw [← ht]
          exact List.drop_left p t
        have htlen : t.length < (c :: cs).length := by
          have hlp := congrArg List.length ht
          have hp1 : 1 ≤ p.length := by
            cases hpn : p with
            | nil => exact absurd hpn hcond.2
            | cons y ys => simp
          simp only [List.length_append, List.length_cons] at hlp ⊢
          omega
        rw [hdrop, countOccs_append_of_noRel R hA (replaceAll p R t), ih t htlen, ← ht,
          countOccs_append_of_noRel p hP t]
      · rw [replaceAll_cons, if_neg hcond]
        by_cases hmpre : ('<' :: m') <+: (c :: cs)
        · obtain ⟨hcl, hm'pre⟩ := List.cons_prefix_cons.mp hmpre
          obtain ⟨rest, hrest⟩ := hm'pre
          have hYeq : replaceAll p R cs = m' ++ replaceAll p R rest := by
            rw [← hrest]
            exact replaceAll_append_of_noRel m' hB rest
          have hrlen : rest.length < (c :: cs).length := by
            have := congrArg List.length hrest
            simp only [List.length_append, List.length_cons] at this ⊢
            omega
          rw [hYeq, ← hcl, ← List.cons_append,
            countOccs_self_append (List.cons_ne_nil '<' m'), ih rest hrlen,
            ← hrest, ← List.cons_append, countOccs_self_append (List.cons_ne_nil '<' m')]
        · have hnpre : ¬ ('<' :: m') <+: (c :: replaceAll p R cs) := by
            intro hpre2
            obtain ⟨hcl, hm'pre⟩ := List.cons_prefix_cons.mp hpre2
            by_cases hm'nil : m' = []
            · subst hm'nil
              exact hmpre (List.cons_prefix_cons.mpr ⟨hcl, List.nil_prefix⟩)
            · have h0 : 0 < m'.length := by
                cases hmn : m' with
                | nil => exact absurd hmn hm'nil
                | cons y ys => simp
              have htr := prefix_transfer_suffix hRlt hlt hQ cs 0 h0 (by simpa using hm'pre)
              exact hmpre (List.cons_prefix_cons.mpr ⟨hcl, by simpa using htr⟩)
          rw [countOccs_cons, if_neg (fun hc2 => hnpre (prefixOf_bridge.mp hc2.1)),
            countOccs_cons ('<' :: m') c cs,
            if_neg (fun hc2 => hmpre (prefixOf_bridge.mp hc2.1)),
            ih cs (by simp)]

/-- Preservation for a counted string and a pattern that cannot overlap
(head of each absent from the other) with an insertion disjoint from the
counted string. -/
theorem countOccs_replaceAll_disj {qh ph : Char} {q' p' R : List Char}
    (h1 : qh ∉ ph :: p') (h2 : ph ∉ q') (h3 : ∀ a ∈ qh :: q', a ∉ R) (hR : R ≠ []) :
    ∀ s, countOccs (qh :: q') (replaceAll (ph :: p') R s) = countOccs (qh :: q') s := by
  intro s
  induction s using listStrongInd with
  | step s ih =>
    cases s with
    | nil => rfl
    | cons c cs =>
      by_cases hcond : (ph :: p').isPrefixOf (c :: cs) ∧ (ph :: p') ≠ []
      · rw [replaceAll_cons, if_pos hcond]
        obtain ⟨t, ht⟩ := prefixOf_bridge.mp hcond.1
        have hdrop : List.drop (ph :: p').length (c :: cs) = t := by
          rw [← ht]
          exact List.drop_left _ t
        have htlen : t.length < (c :: cs).length := by
          have hlp := congrArg List.length ht
          simp only [List.length_append, List.length_cons] at hlp ⊢
          omega
        rw [hdrop, countOccs_append_of_headNot (h3 qh (List.mem_cons_self _ _)),
          ih t htlen, ← ht, countOccs_append_of_headNot h1]
      · rw [replaceAll_cons, if_neg hcond]
        by_cases hqpre : (qh :: q') <+: (c :: cs)
        · obtain ⟨hcq, hq'pre⟩ := List.cons_prefix_cons.mp hqpre
          obtain ⟨t', ht'⟩ := hq'pre
          have hYeq : replaceAll (ph :: p') R cs = q' ++ replaceAll (ph :: p') R t' := by
            rw [← ht']
            exact replaceAll_append_of_headNot h2 t'
          have ht'len : t'.length < (c :: cs).length := by
            have := congrArg List.length ht'
            simp only [List.length_append, List.length_cons] at this ⊢
            omega
          rw [hYeq, ← hcq, ← List.cons_append,
            countOccs_self_append (List.cons_ne_nil qh q'), ih t' ht'len,
            ← ht', ← List.cons_append, countOccs_self_append (List.cons_ne_nil qh q')]
        · have hnpre : ¬ (qh :: q') <+: (c :: replaceAll (ph :: p') R cs) := by
            intro hpre2
            obtain ⟨hcq, hq2⟩ := List.cons_prefix_cons.mp hpre2
            by_cases hq'nil : q' = []
            · subst hq'nil
              exact hqpre (List.cons_prefix_cons.mpr ⟨hcq, List.nil_prefix⟩)
            · have htr := prefix_transfer_disj hR cs q' hq'nil
                (fun a ha => h3 a (List.mem_cons_of_mem _ ha)) hq2
              exact hqpre (List.cons_prefix_cons.mpr ⟨hcq, htr⟩)
          rw [countOccs_cons, if_neg (fun hc2 => hnpre (prefixOf_bridge.mp hc2.1)),
            countOccs_cons (qh :: q') c cs,
            if_neg (fun hc2 => hqpre (prefixOf_bridge.mp hc2.1)),
            ih cs (by simp)]

/-! ### Conditions satisfied by the script's table, and their consequences -/

/-- Shape of every markup string in the script: it starts with its only `<`
and ends with its only `>`. -/
def TaggedMarkup (m : List Char) : Prop :=
  m.head? = some '<' ∧ '<' ∉ m.tail ∧ m.getLast? = some '>' ∧ '>' ∉ m.dropLast

/-- Conditions a generic table rule satisfies: a nonempty pattern of
non-ASCII characters, and a tagged ASCII markup. -/
def GoodRule (r : List Char × List Char) : Prop :=
  r.1 ≠ [] ∧ (∀ a ∈ r.1, 128 ≤ a.toNat) ∧ TaggedMarkup r.2 ∧ (∀ a ∈ r.2, a.toNat < 128)

/-- Patterns of two distinct rules cannot overlap: the second pattern's head
is absent from the first pattern, and the first pattern's head is absent
from the second pattern's tail. -/
def PatSep : List Char → List Char → Prop
  | eh :: e', fh :: f' => fh ∉ eh :: e' ∧ eh ∉ f'
  | _, _ => False

instance instDecPatSep : ∀ e f : List Char, Decidable (PatSep e f)
  | [], _ => isFalse (fun h => h)
  | _ :: _, [] => isFalse (fun h => h)
  | eh :: e', fh :: f' => inferInstanceAs (Decidable (fh ∉ eh :: e' ∧ eh ∉ f'))

/-- The generic table conditions used by the fold lemmas. -/
def GoodTable (rules : List (List Char × List Char)) : Prop :=
  (∀ r ∈ rules, GoodRule r) ∧ List.Pairwise (fun a b => PatSep a.1 b.1) rules

theorem taggedMarkup_shape {m : List Char} (h : TaggedMarkup m) :
    ∃ m', m = '<' :: m' ∧ '<' ∉ m' := by
  obtain ⟨h1, h2, -, -⟩ := h
  cases m with
  | nil => exact absurd h1 (by simp)
  | cons x m' =>
    have hx : x = '<' := by simpa using h1
    exact ⟨m', by rw [hx], by simpa using h2⟩

theorem taggedMarkup_ne_nil {m : List Char} (h : TaggedMarkup m) : m ≠ [] := by
  obtain ⟨m', hm, -⟩ := taggedMarkup_shape h
  rw [hm]
  exact List.cons_ne_nil _ _

theorem disj_of_ascii {f R : List Char} (hf : ∀ a ∈ f, 128 ≤ a.toNat)
    (hR : ∀ a ∈ R, a.toNat < 128) : ∀ a ∈ f, a ∉ R :=
  fun a ha hmem => absurd (hR a hmem) (by have := hf a ha; omega)

theorem head?_of_ne_nil {l : List Char} (h : l ≠ []) : ∃ x, l.head? = some x := by
  cases l with
  | nil => exact absurd rfl h
  | cons a t => exact ⟨a, rfl⟩

theorem drop_head_mem_tail {R : List Char} {k : Nat} (hk1 : 1 ≤ k) {x : Char}
    (hx : (R.drop k).head? = some x) : x ∈ R.tail := by
  have h1 : R.drop k = R.tail.drop (k-1) := by
    rw [← List.drop_one, List.drop_drop]
    congr 1
    omega
  rw [h1] at hx
  exact List.drop_subset (k-1) R.tail (mem_of_head?_eq hx)

/-- A tagged string is never a prefix of a different tagged string: its
closing `>` would sit strictly inside the other. -/
theorem tagged_no_proper_pre {u v : List Char} (hu : TaggedMarkup u) (hv : TaggedMarkup v)
    (hne : v ≠ u) : ¬ u <+: v := by
  intro hpre
  obtain ⟨ext, hext⟩ := hpre
  cases hext_nil : ext with
  | nil =>
    exact hne (by rw [← hext, hext_nil, List.append_nil])
  | cons e es =>
    have hgt : '>' ∈ u := List.mem_of_getLast?_eq_some hu.2.2.1
    have hdl : v.dropLast = u ++ ext.dropLast := by
      rw [← hext, List.dropLast_append_of_ne_nil]
      rw [hext_nil]
      exact List.cons_ne_nil _ _
    exact hv.2.2.2 (hdl ▸ List.mem_append_left _ hgt)

/-- No suffix of a tagged string placed at a positive offset matches a
different tagged string in either direction. -/
theorem noRel_of_tagged {m R : List Char} (hm : TaggedMarkup m) (hR : TaggedMarkup R)
    (hne : m ≠ R) :
    ∀ k, k < R.length → ¬ (R.drop k) <+: m ∧ ¬ m <+: (R.drop k) := by
  intro k hk
  rcases Nat.eq_zero_or_pos k with hk0 | hkpos
  · subst hk0
    rw [List.drop_zero]
    exact ⟨tagged_no_proper_pre hR hm hne, tagged_no_proper_pre hm hR (fun h => hne h.symm)⟩
  · have hne2 : R.drop k ≠ [] := drop_ne_nil_of_lt hk
    obtain ⟨x, hx⟩ := head?_of_ne_nil hne2
    have hxtail : x ∈ R.tail := drop_head_mem_tail hkpos hx
    have hxne : x ≠ '<' := fun he => hR.2.1 (he ▸ hxtail)
    constructor
    · intro hpre
      have h1 := head?_eq_of_isPre hpre hne2
      rw [hm.1, hx] at h1
      exact hxne (by simpa using h1.symm)
    · intro hpre
      have hmne : m ≠ [] := taggedMarkup_ne_nil hm
      have h1 := head?_eq_of_isPre hpre hmne
      rw [hx, hm.1] at h1
      exact hxne (by simpa using h1)

/-- No suffix of the ASCII tail of a markup is a prefix of a string headed
by `<`. -/
theorem noPreR_of_tagged {m' R : List Char} (hlt : '<' ∉ m') (hRh : R.head? = some '<') :
    ∀ k, k < m'.length → ¬ (m'.drop k) <+: R := by
  intro k hk hpre
  have hne2 : m'.drop k ≠ [] := drop_ne_nil_of_lt hk
  have h1 := head?_eq_of_isPre hpre hne2
  obtain ⟨x, hx⟩ := head?_of_ne_nil hne2
  rw [hx, hRh] at h1
  have hx' : x = '<' := by simpa using h1.symm
  exact hlt (hx' ▸ List.drop_subset k m' (mem_of_head?_eq hx))

/-- If the head of `v` does not occur in `u`, then no suffix of `u` relates
to `v` by prefix in either direction. -/
theorem noRel_of_head_notMem {u v : List Char} {vh : Char} (hvh : v.head? = some vh)
    (hu : vh ∉ u) :
    ∀ k, k < u.length → ¬ (u.drop k) <+: v ∧ ¬ v <+: (u.drop k) := by
  intro k hk
  have hne2 : u.drop k ≠ [] := drop_ne_nil_of_lt hk
  obtain ⟨x, hx⟩ := head?_of_ne_nil hne2
  have hxm : x ∈ u := List.drop_subset k u (mem_of_head?_eq hx)
  have hxvh : x ≠ vh := fun he => hu (he ▸ hxm)
  constructor
  · intro hpre
    have h1 := head?_eq_of_isPre hpre hne2
    rw [hvh, hx] at h1
    exact hxvh (by simpa using h1.symm)
  · intro hpre
    have hvne : v ≠ [] := by intro h; rw [h] at hvh; simp at hvh
    have h1 := head?_eq_of_isPre hpre hvne
    rw [hx, hvh] at h1
    exact hxvh (by simpa using h1)

/-! ### Counting through one loop iteration and through the whole loop -/

theorem countOccs_ruleStep_markup {m : List Char} (hm : TaggedMarkup m)
    (hma : ∀ a ∈ m, a.toNat < 128) {r : List Char × List Char}
    (hr : GoodRule r) (hne : r.2 ≠ m) (s : List Char) :
    countOccs m (ruleStep s r) = countOccs m s := by
  obtain ⟨hp, hpa, hR, hRa⟩ := hr
  obtain ⟨m', hmeq, hltm'⟩ := taggedMarkup_shape hm
  subst hmeq
  obtain ⟨ph, hph⟩ := head?_of_ne_nil hp
  have hpha : 128 ≤ ph.toNat := hpa ph (mem_of_head?_eq hph)
  unfold ruleStep
  by_cases hc : 0 < countOccs r.1 s
  · rw [if_pos hc]
    refine countOccs_replaceAll_pres hltm' hp ?_ ?_ ?_ ?_ ?_ s
    · exact noRel_of_head_notMem rfl (fun h => absurd (hpa '<' h) (by decide))
    · exact mem_of_head?_eq hR.1
    · exact noPreR_of_tagged hltm' hR.1
    · exact noRel_of_tagged hm hR hne.symm
    · exact noRel_of_head_notMem hph
        (fun h => absurd (hma ph (List.mem_cons_of_mem _ h)) (by omega))
  · rw [if_neg hc]

theorem countOccs_ruleStep_markup_self {m : List Char} (hm : TaggedMarkup m)
    (hma : ∀ a ∈ m, a.toNat < 128) {r : List Char × List Char}
    (hr : GoodRule r) (heq : r.2 = m) (s : List Char) :
    countOccs m (ruleStep s r) = countOccs m s + countOccs r.1 s := by
  obtain ⟨hp, hpa, hR, hRa⟩ := hr
  obtain ⟨m', hmeq, hltm'⟩ := taggedMarkup_shape hm
  subst hmeq
  unfold ruleStep
  by_cases hc : 0 < countOccs r.1 s
  · rw [if_pos hc, heq]
    exact countOccs_replaceAll_self hltm' hp
      (disj_of_ascii hpa (heq ▸ hRa)) s
  · rw [if_neg hc]
    omega

theorem countOccs_ruleStep_disjPat {f : List Char} {r : List Char × List Char}
    (hsep : PatSep r.1 f) (hdisj : ∀ a ∈ f, a ∉ r.2) (hr2 : r.2 ≠ []) (s : List Char) :
    countOccs f (ruleStep s r) = countOccs f s := by
  unfold ruleStep
  by_cases hc : 0 < countOccs r.1 s
  · rw [if_pos hc]
    cases hpc : r.1 with
    | nil => rw [hpc] at hsep; exact absurd hsep (by intro h; exact h)
    | cons ph p' =>
      cases hfc : f with
      | nil => rw [hpc, hfc] at hsep; exact absurd hsep (by intro h; exact h)
      | cons fh f' =>
        rw [hpc, hfc] at hsep
        refine countOccs_replaceAll_disj hsep.1 hsep.2 ?_ hr2 s
        intro a ha
        exact hdisj a (hfc ▸ ha)
  · rw [if_neg hc]

theorem countOccs_foldl_disjPat {f : List Char} :
    ∀ rules : List (List Char × List Char),
      (∀ r ∈ rules, PatSep r.1 f ∧ (∀ a ∈ f, a ∉ r.2) ∧ r.2 ≠ []) →
      ∀ s, countOccs f (List.foldl ruleStep s rules) = countOccs f s := by
  intro rules
  induction rules with
  | nil => intro _ s; rfl
  | cons r rest ih =>
    intro h s
    rw [List.foldl_cons, ih (fun r' hr' => h r' (List.mem_cons_of_mem r hr'))]
    obtain ⟨h1, h2, h3⟩ := h r (List.mem_cons_self r rest)
    exact countOccs_ruleStep_disjPat h1 h2 h3 s

theorem countOccs_foldl_markup {m : List Char} (hm : TaggedMarkup m)
    (hma : ∀ a ∈ m, a.toNat < 128) :
    ∀ rules : List (List Char × List Char), GoodTable rules →
      ∀ s, countOccs m (List.foldl ruleStep s rules)
          = countOccs m s
            + (List.map (fun r => countOccs r.1 s)
                (List.filter (fun r => r.2 == m) rules)).sum := by
  intro rules
  induction rules with
  | nil => intro _ s; simp
  | cons r rest ih =>
    intro hGT s
    obtain ⟨hGood, hPW⟩ := hGT
    have hGTrest : GoodTable rest :=
      ⟨fun r' h => hGood r' (List.mem_cons_of_mem r h), (List.pairwise_cons.mp hPW).2⟩
    rw [List.foldl_cons, ih hGTrest (ruleStep s r)]
    have hmapeq : (List.map (fun r' => countOccs r'.1 (ruleStep s r))
          (List.filter (fun r' => r'.2 == m) rest)).sum
        = (List.map (fun r' => countOccs r'.1 s)
          (List.filter (fun r' => r'.2 == m) rest)).sum := by
      refine congrArg List.sum (List.map_congr_left ?_)
      intro r' hr'
      have hmem : r' ∈ rest := List.mem_of_mem_filter hr'
      have hsep : PatSep r.1 r'.1 := (List.pairwise_cons.mp hPW).1 r' hmem
      have hg' := hGood r' (List.mem_cons_of_mem r hmem)
      have hg := hGood r (List.mem_cons_self r rest)
      exact countOccs_ruleStep_disjPat hsep
        (disj_of_ascii hg'.2.1 hg.2.2.2) (taggedMarkup_ne_nil hg.2.2.1) s
    by_cases hr2m : r.2 = m
    · rw [List.filter_cons_of_pos (by simpa using hr2m)]
      simp only [List.map_cons, List.sum_cons]
      rw [countOccs_ruleStep_markup_self hm hma (hGood r (List.mem_cons_self r rest)) hr2m,
        hmapeq]
      omega
    · rw [List.filter_cons_of_neg (by simpa using hr2m)]
      rw [countOccs_ruleStep_markup hm hma (hGood r (List.mem_cons_self r rest)) hr2m,
        hmapeq]

/-! ### Executable checkers for the concrete side conditions -/

instance (m : List Char) : Decidable (TaggedMarkup m) := by
  unfold TaggedMarkup
  infer_instance

instance (r : List Char × List Char) : Decidable (GoodRule r) := by
  unfold GoodRule
  infer_instance

instance (rules : List (List Char × List Char)) : Decidable (GoodTable rules) := by
  unfold GoodTable
  infer_instance

/-- One-pass check: no nonempty suffix of the scanned list is related to `m`
by prefix in either direction. -/
def noRelB (m : List Char) : List Char → Bool
  | [] => true
  | c :: cs => !((c :: cs).isPrefixOf m) && !(m.isPrefixOf (c :: cs)) && noRelB m cs

/-- One-pass check: no nonempty suffix of the scanned list is a prefix of `R`. -/
def noPreB (R : List Char) : List Char → Bool
  | [] => true
  | c :: cs => !((c :: cs).isPrefixOf R) && noPreB R cs

theorem noRelB_spec {m : List Char} :
    ∀ u, noRelB m u = true →
      ∀ k, k < u.length → ¬ (u.drop k) <+: m ∧ ¬ m <+: (u.drop k) := by
  intro u
  induction u with
  | nil => intro _ k hk; simp at hk
  | cons c cs ih =>
    intro h k hk
    simp only [noRelB, Bool.and_eq_true, Bool.not_eq_true'] at h
    cases k with
    | zero =>
      rw [List.drop_zero]
      constructor
      · intro hp
        rw [prefixOf_bridge.mpr hp] at h
        exact absurd h.1.1 (by simp)
      · intro hp
        rw [prefixOf_bridge.mpr hp] at h
        exact absurd h.1.2 (by simp)
    | succ k =>
      have := ih h.2 k (by simpa using hk)
      simpa using this

theorem noPreB_spec {R : List Char} :
    ∀ u, noPreB R u = true → ∀ k, k < u.length → ¬ (u.drop k) <+: R := by
  intro u
  induction u with
  | nil => intro _ k hk; simp at hk
  | cons c cs ih =>
    intro h k hk
    simp only [noPreB, Bool.and_eq_true, Bool.not_eq_true'] at h
    cases k with
    | zero =>
      rw [List.drop_zero]
      intro hp
      rw [prefixOf_bridge.mpr hp] at h
      exact absurd h.1 (by simp)
    | succ k =>
      have := ih h.2 k (by simpa using hk)
      simpa using this

/-- All side conditions needed to carry the count of a tagged markup `m`
across `replaceAll p R` unchanged, as one executable check. -/
def presChk (m p R : List Char) : Bool :=
  decide (p ≠ []) && noRelB m p && decide ('<' ∈ R) && noPreB R m.tail
    && noRelB m R && noRelB p m.tail

theorem countOccs_replaceAll_presChk {m p R : List Char} (hm : TaggedMarkup m)
    (hc : presChk m p R = true) (s : List Char) :
    countOccs m (replaceAll p R s) = countOccs m s := by
  obtain ⟨m', hmeq, hltm'⟩ := taggedMarkup_shape hm
  simp only [presChk, Bool.and_eq_true, decide_eq_true_eq] at hc
  obtain ⟨⟨⟨⟨⟨h1, h2⟩, h3⟩, h4⟩, h5⟩, h6⟩ := hc
  subst hmeq
  simp only [List.tail_cons] at h4 h6
  exact countOccs_replaceAll_pres hltm' h1 (noRelB_spec p h2) h3
    (noPreB_spec m' h4) (noRelB_spec R h5) (noRelB_spec m' h6) s

theorem countOccs_applyConstrained {m : List Char} (hm : TaggedMarkup m)
    (h1 : presChk m iconPat iconRep = true) (h2 : presChk m mechanicPat mechanicRep = true)
    (h3 : presChk m instancePat instanceRep = true)
    (h4 : presChk m typeIconPat typeIconRep = true) (s : List Char) :
    countOccs m (applyConstrained s) = countOccs m s := by
  unfold applyConstrained
  rw [countOccs_replaceAll_presChk hm h4, countOccs_replaceAll_presChk hm h3,
    countOccs_replaceAll_presChk hm h2, countOccs_replaceAll_presChk hm h1]

theorem countOccs_applyCatchAll {m : List Char} (hm : TaggedMarkup m)
    (h5 : presChk m gearSym mechMarkup = true) (s : List Char) :
    countOccs m (applyCatchAll s) = countOccs m s := by
  unfold applyCatchAll
  by_cases hc : 0 < countOccs gearSym s
  · rw [if_pos hc, countOccs_replaceAll_presChk hm h5]
  · rw [if_neg hc]

/-- The tail-phase side conditions, checked for every markup of the table. -/
def tableTailChk : Bool :=
  replacements.all (fun r =>
    presChk r.2 iconPat iconRep && presChk r.2 mechanicPat mechanicRep &&
    presChk r.2 instancePat instanceRep && presChk r.2 typeIconPat typeIconRep &&
    presChk r.2 gearSym mechMarkup)

set_option maxRecDepth 400000 in
theorem tableTailChk_true : tableTailChk = true := by rfl

set_option maxRecDepth 400000 in
theorem goodTable_replacements : GoodTable replacements := by decide

/-- Executable check for carrying the count of `q` across `replaceAll p R`:
the two strings cannot overlap and the insertion avoids `q`'s characters. -/
def pres2Chk (q p R : List Char) : Bool :=
  match q, p with
  | qh :: q', ph :: p' =>
    decide (qh ∉ ph :: p') && decide (ph ∉ q') && decide (∀ a ∈ qh :: q', a ∉ R)
      && decide (R ≠ [])
  | _, _ => false

theorem countOccs_replaceAll_pres2Chk {q p R : List Char} (h : pres2Chk q p R = true)
    (s : List Char) : countOccs q (replaceAll p R s) = countOccs q s := by
  cases q with
  | nil => simp [pres2Chk] at h
  | cons qh q' =>
    cases p with
    | nil => simp [pres2Chk] at h
    | cons ph p' =>
      simp only [pres2Chk, Bool.and_eq_true, decide_eq_true_eq] at h
      exact countOccs_replaceAll_disj h.1.1.1 h.1.1.2 h.1.2 h.2 s

theorem countOccs_ruleStep_pres2Chk {q : List Char} {r : List Char × List Char}
    (h : pres2Chk q r.1 r.2 = true) (s : List Char) :
    countOccs q (ruleStep s r) = countOccs q s := by
  unfold ruleStep
  by_cases hc : 0 < countOccs r.1 s
  · rw [if_pos hc]
    exact countOccs_replaceAll_pres2Chk h s
  · rw [if_neg hc]

theorem countOccs_foldl_pres2Chk {q : List Char} :
    ∀ rules : List (List Char × List Char), (∀ r ∈ rules, pres2Chk q r.1 r.2 = true) →
      ∀ s, countOccs q (List.foldl ruleStep s rules) = countOccs q s := by
  intro rules
  induction rules with
  | nil => intro _ s; rfl
  | cons r rest ih =>
    intro h s
    rw [List.foldl_cons, ih (fun r' hr' => h r' (List.mem_cons_of_mem r hr'))]
    exact countOccs_ruleStep_pres2Chk (h r (List.mem_cons_self r rest)) s

/-- Executable check for carrying the multiset count of one character across
`replaceAll p R`: pattern and insertion hold the character equally often. -/
def cntChk (a : Char) (p R : List Char) : Bool :=
  decide (R.count a = p.count a) && decide (p ≠ [])

theorem count_replaceAll_cntChk {a : Char} {p R : List Char} (h : cntChk a p R = true)
    (s : List Char) : (replaceAll p R s).count a = s.count a := by
  simp only [cntChk, Bool.and_eq_true, decide_eq_true_eq] at h
  exact count_replaceAll_eq h.2 h.1 s

theorem count_ruleStep_cntChk {a : Char} {r : List Char × List Char}
    (h : cntChk a r.1 r.2 = true) (s : List Char) :
    (ruleStep s r).count a = s.count a := by
  unfold ruleStep
  by_cases hc : 0 < countOccs r.1 s
  · rw [if_pos hc]
    exact count_replaceAll_cntChk h s
  · rw [if_neg hc]

theorem count_foldl_cntChk {a : Char} :
    ∀ rules : List (List Char × List Char), (∀ r ∈ rules, cntChk a r.1 r.2 = true) →
      ∀ s, (List.foldl ruleStep s rules).count a = s.count a := by
  intro rules
  induction rules with
  | nil => intro _ s; rfl
  | cons r rest ih =>
    intro h s
    rw [List.foldl_cons, ih (fun r' hr' => h r' (List.mem_cons_of_mem r hr'))]
    exact count_ruleStep_cntChk (h r (List.mem_cons_self r rest)) s

/-- Counting a single character as a substring is the multiset count. -/
theorem countOccs_single (a : Char) : ∀ s, countOccs [a] s = s.count a := by
  intro s
  induction s with
  | nil => rfl
  | cons c cs ih =>
    rw [countOccs_cons]
    by_cases hac : a = c
    · rw [if_pos ⟨prefixOf_bridge.mpr ⟨cs, by rw [hac, List.singleton_append]⟩, by simp⟩]
      have hd1 : List.drop [a].length (c :: cs) = cs := rfl
      rw [hd1, ih, List.count_cons]
      simp [hac]
      omega
    · rw [if_neg]
      · rw [ih, List.count_cons]
        have hca : ¬ c = a := fun h => hac h.symm
        simp [hca]
      · rintro ⟨h1, -⟩
        exact hac (List.cons_prefix_cons.mp (prefixOf_bridge.mp h1)).1

/-! ### No-occurrence propagation through the pipeline -/

theorem not_occ_replaceAll {q p R : List Char} (hq : q ≠ []) (hR : R ≠ [])
    (hd : ∀ a ∈ q, a ∉ R) {s : List Char} (h : ¬ q <:+: s) :
    ¬ q <:+: replaceAll p R s :=
  fun hinf => h (infix_transfer hR s q hq hd hinf)

theorem not_occ_ruleStep {q : List Char} {r : List Char × List Char} (hq : q ≠ [])
    (hd : ∀ a ∈ q, a ∉ r.2) (hr2 : r.2 ≠ []) {s : List Char}
    (h : ¬ q <:+: s) : ¬ q <:+: ruleStep s r := by
  unfold ruleStep
  by_cases hc : 0 < countOccs r.1 s
  · rw [if_pos hc]
    exact not_occ_replaceAll hq hr2 hd h
  · rw [if_neg hc]
    exact h

theorem not_occ_foldl {q : List Char} (hq : q ≠ []) :
    ∀ rules : List (List Char × List Char),
      (∀ r ∈ rules, (∀ a ∈ q, a ∉ r.2) ∧ r.2 ≠ []) →
      ∀ s, ¬ q <:+: s → ¬ q <:+: List.foldl ruleStep s rules := by
  intro rules
  induction rules with
  | nil => intro _ s h; exact h
  | cons r rest ih =>
    intro hall s h
    rw [List.foldl_cons]
    refine ih (fun r' hr' => hall r' (List.mem_cons_of_mem r hr')) _ ?_
    obtain ⟨h1, h2⟩ := hall r (List.mem_cons_self r rest)
    exact not_occ_ruleStep hq h1 h2 h

theorem ruleStep_no_self {r : List Char × List Char} (hp : r.1 ≠ []) (hr2 : r.2 ≠ [])
    (hd : ∀ a ∈ r.1, a ∉ r.2) (s : List Char) : ¬ r.1 <:+: ruleStep s r := by
  unfold ruleStep
  by_cases hc : 0 < countOccs r.1 s
  · rw [if_pos hc]
    exact replaceAll_no_self_occ hp hr2 hd s
  · rw [if_neg hc]
    exact (countOccs_eq_zero_iff hp s).mp (by omega)

theorem not_occ_foldl_pat :
    ∀ rules : List (List Char × List Char), GoodTable rules →
      ∀ r ∈ rules, ∀ s, ¬ r.1 <:+: List.foldl ruleStep s rules := by
  intro rules
  induction rules with
  | nil => intro _ r hr; exact absurd hr (by simp)
  | cons r0 rest ih =>
    intro hGT r hr s
    obtain ⟨hGood, hPW⟩ := hGT
    have hGTrest : GoodTable rest :=
      ⟨fun r' h => hGood r' (List.mem_cons_of_mem r0 h), (List.pairwise_cons.mp hPW).2⟩
    rw [List.foldl_cons]
    rcases List.mem_cons.mp hr with hre | hrm
    · subst hre
      have hg := hGood r (List.mem_cons_self r rest)
      have h0 : ¬ r.1 <:+: ruleStep s r :=
        ruleStep_no_self hg.1 (taggedMarkup_ne_nil hg.2.2.1)
          (disj_of_ascii hg.2.1 hg.2.2.2) s
      refine not_occ_foldl hg.1 rest ?_ _ h0
      intro r' hr'
      have hg' := hGood r' (List.mem_cons_of_mem r hr')
      exact ⟨disj_of_ascii hg.2.1 hg'.2.2.2, taggedMarkup_ne_nil hg'.2.2.1⟩
    · exact ih hGTrest r hrm (ruleStep s r0)

/-- No pattern character of the table occurs in any tail-phase insertion. -/
def tailDisjChk : Bool :=
  replacements.all (fun r => decide (∀ a ∈ r.1,
    a ∉ iconRep ∧ a ∉ mechanicRep ∧ a ∉ instanceRep ∧ a ∉ typeIconRep ∧ a ∉ mechMarkup))

theorem tailDisjChk_true : tailDisjChk = true := by rfl

theorem not_occ_applyConstrained {q : List Char} (hq : q ≠ [])
    (h1 : ∀ a ∈ q, a ∉ iconRep) (h2 : ∀ a ∈ q, a ∉ mechanicRep)
    (h3 : ∀ a ∈ q, a ∉ instanceRep) (h4 : ∀ a ∈ q, a ∉ typeIconRep)
    {s : List Char} (h : ¬ q <:+: s) : ¬ q <:+: applyConstrained s := by
  unfold applyConstrained
  exact not_occ_replaceAll hq (by decide) h4
    (not_occ_replaceAll hq (by decide) h3
      (not_occ_replaceAll hq (by decide) h2
        (not_occ_replaceAll hq (by decide) h1 h)))

theorem not_occ_applyCatchAll {q : List Char} (hq : q ≠ [])
    (hd : ∀ a ∈ q, a ∉ mechMarkup) {s : List Char} (h : ¬ q <:+: s) :
    ¬ q <:+: applyCatchAll s := by
  unfold applyCatchAll
  by_cases hc : 0 < countOccs gearSym s
  · rw [if_pos hc]
    exact not_occ_replaceAll hq (by decide) hd h
  · rw [if_neg hc]
    exact h

/-- After the whole pass the gear symbol does not occur at all. -/
theorem transform_no_gear_occ (d : List Char) : ¬ gearSym <:+: transform d := by
  unfold transform applyCatchAll
  by_cases hc : 0 < countOccs gearSym (applyConstrained (applyGeneric d))
  · rw [if_pos hc]
    exact replaceAll_no_self_occ (by decide) (by decide) (by decide) _
  · rw [if_neg hc]
    exact (countOccs_eq_zero_iff (by decide) _).mp (by omega)

/-- After the whole pass no generic pattern occurs. -/
theorem transform_no_pat_occ {r : List Char × List Char} (hr : r ∈ replacements)
    (d : List Char) : ¬ r.1 <:+: transform d := by
  have hg := goodTable_replacements.1 r hr
  have hdisj : ∀ a ∈ r.1,
      a ∉ iconRep ∧ a ∉ mechanicRep ∧ a ∉ instanceRep ∧ a ∉ typeIconRep ∧ a ∉ mechMarkup := by
    have hchk := tailDisjChk_true
    simp only [tailDisjChk, List.all_eq_true, decide_eq_true_eq] at hchk
    exact hchk r hr
  have h0 : ¬ r.1 <:+: applyGeneric d :=
    not_occ_foldl_pat replacements goodTable_replacements r hr d
  have h1 := not_occ_applyConstrained hg.1 (fun a ha => (hdisj a ha).1)
    (fun a ha => (hdisj a ha).2.1) (fun a ha => (hdisj a ha).2.2.1)
    (fun a ha => (hdisj a ha).2.2.2.1) h0
  exact not_occ_applyCatchAll hg.1 (fun a ha => (hdisj a ha).2.2.2.2) h1

/-! ### The pass is the identity on already-transformed text -/

theorem foldl_ruleStep_id :
    ∀ rules : List (List Char × List Char), (∀ r ∈ rules, r.1 ≠ []) → ∀ s,
      (∀ r ∈ rules, ¬ r.1 <:+: s) → List.foldl ruleStep s rules = s := by
  intro rules
  induction rules with
  | nil => intro _ s _; rfl
  | cons r rest ih =>
    intro hne s h
    rw [List.foldl_cons]
    have hz : countOccs r.1 s = 0 :=
      (countOccs_eq_zero_iff (hne r (List.mem_cons_self r rest)) s).mpr
        (h r (List.mem_cons_self r rest))
    have hstep : ruleStep s r = s := by
      unfold ruleStep
      rw [if_neg (by omega)]
    rw [hstep]
    exact ih (fun r' h' => hne r' (List.mem_cons_of_mem r h'))
      s (fun r' h' => h r' (List.mem_cons_of_mem r h'))

theorem transform_fixed {t : List Char}
    (hpat : ∀ r ∈ replacements, ¬ r.1 <:+: t) (hgear : ¬ gearSym <:+: t) :
    transform t = t := by
  have hgi : gearSym <:+: iconPat := ⟨"icon: '".data, "'".data, by rfl⟩
  have hgm : gearSym <:+: mechanicPat := ⟨"mechanic: '".data, " Mechanics'".data, by rfl⟩
  have hgn : gearSym <:+: instancePat := ⟨": '".data, " Instance</span>'".data, by rfl⟩
  have hgt : gearSym <:+: typeIconPat :=
    ⟨"const typeIcon = cls.classType === 'character' ? '🎭' : '".data, "';".data, by rfl⟩
  unfold transform
  have h1 : applyGeneric t = t :=
    foldl_ruleStep_id replacements (fun r hr => (goodTable_replacements.1 r hr).1) t hpat
  rw [h1]
  have h2 : applyConstrained t = t := by
    unfold applyConstrained
    rw [replaceAll_of_no_occ t (fun h => hgear (hgi.trans h)),
      replaceAll_of_no_occ t (fun h => hgear (hgm.trans h)),
      replaceAll_of_no_occ t (fun h => hgear (hgn.trans h)),
      replaceAll_of_no_occ t (fun h => hgear (hgt.trans h))]
  rw [h2]
  unfold applyCatchAll
  rw [if_neg]
  have hz : countOccs gearSym t = 0 := (countOccs_eq_zero_iff (by decide) t).mpr hgear
  omega

/-- Running the full pass twice is the same as running it once. -/
theorem transform_transform (d : List Char) : transform (transform d) = transform d :=
  transform_fixed (fun r hr => transform_no_pat_occ hr d) (transform_no_gear_occ d)

/-! ### Whole-pass counting results -/

/-- Every pattern of the generic table is gone after the pass. -/
theorem transform_pat_zero {r : List Char × List Char} (hr : r ∈ replacements)
    (d : List Char) : countOccs r.1 (transform d) = 0 :=
  (countOccs_eq_zero_iff (goodTable_replacements.1 r hr).1 _).mpr (transform_no_pat_occ hr d)

/-- The gear symbol is gone after the pass. -/
theorem transform_gear_zero (d : List Char) : countOccs gearSym (transform d) = 0 :=
  (countOccs_eq_zero_iff (by decide) _).mpr (transform_no_gear_occ d)

/-- Exact markup count of the whole pass: the count of a table markup grows
by the total number of occurrences of all patterns that map to it. -/
theorem transform_markup_count {r : List Char × List Char} (hr : r ∈ replacements)
    (d : List Char) :
    countOccs r.2 (transform d)
      = countOccs r.2 d + (List.map (fun e => countOccs e.1 d)
          (List.filter (fun e => e.2 == r.2) replacements)).sum := by
  have hg := goodTable_replacements.1 r hr
  have htag := hg.2.2.1
  have hchk := tableTailChk_true
  simp only [tableTailChk, List.all_eq_true, Bool.and_eq_true] at hchk
  obtain ⟨⟨⟨⟨c1, c2⟩, c3⟩, c4⟩, c5⟩ := hchk r hr
  unfold transform
  rw [countOccs_applyCatchAll htag c5, countOccs_applyConstrained htag c1 c2 c3 c4]
  unfold applyGeneric
  exact countOccs_foldl_markup htag hg.2.2.2 replacements goodTable_replacements d

/-! ### Whole-pass preservation of foreign symbols -/

theorem countOccs_applyCatchAll_pres2 {q : List Char}
    (h5 : pres2Chk q gearSym mechMarkup = true) (s : List Char) :
    countOccs q (applyCatchAll s) = countOccs q s := by
  unfold applyCatchAll
  by_cases hc : 0 < countOccs gearSym s
  · rw [if_pos hc]
    exact countOccs_replaceAll_pres2Chk h5 s
  · rw [if_neg hc]

theorem countOccs_transform_pres2 {q : List Char}
    (hT : ∀ r ∈ replacements, pres2Chk q r.1 r.2 = true)
    (h1 : pres2Chk q iconPat iconRep = true) (h2 : pres2Chk q mechanicPat mechanicRep = true)
    (h3 : pres2Chk q instancePat instanceRep = true)
    (h4 : pres2Chk q typeIconPat typeIconRep = true)
    (h5 : pres2Chk q gearSym mechMarkup = true) (d : List Char) :
    countOccs q (transform d) = countOccs q d := by
  unfold transform applyConstrained
  rw [countOccs_applyCatchAll_pres2 h5, countOccs_replaceAll_pres2Chk h4,
    countOccs_replaceAll_pres2Chk h3, countOccs_replaceAll_pres2Chk h2,
    countOccs_replaceAll_pres2Chk h1]
  exact countOccs_foldl_pres2Chk replacements hT d

theorem count_applyCatchAll_cntChk {a : Char}
    (h5 : cntChk a gearSym mechMarkup = true) (s : List Char) :
    (applyCatchAll s).count a = s.count a := by
  unfold applyCatchAll
  by_cases hc : 0 < countOccs gearSym s
  · rw [if_pos hc]
    exact count_replaceAll_cntChk h5 s
  · rw [if_neg hc]

theorem count_transform_cntChk {a : Char}
    (hT : ∀ r ∈ replacements, cntChk a r.1 r.2 = true)
    (h1 : cntChk a iconPat iconRep = true) (h2 : cntChk a mechanicPat mechanicRep = true)
    (h3 : cntChk a instancePat instanceRep = true)
    (h4 : cntChk a typeIconPat typeIconRep = true)
    (h5 : cntChk a gearSym mechMarkup = true) (d : List Char) :
    (transform d).count a = d.count a := by
  unfold transform applyConstrained
  rw [count_applyCatchAll_cntChk h5, count_replaceAll_cntChk h4,
    count_replaceAll_cntChk h3, count_replaceAll_cntChk h2, count_replaceAll_cntChk h1]
  exact count_foldl_cntChk replacements hT d

/-! ### Length facts -/

theorem replaceAll_length_ge {p r : List Char} (h : p.length ≤ r.length) (s : List Char) :
    s.length ≤ (replaceAll p r s).length := by
  have heq := replaceAll_length p r s
  have hc : countOccs p s * p.length ≤ countOccs p s * r.length :=
    Nat.mul_le_mul_left _ h
  omega

theorem ruleStep_length_ge {r : List Char × List Char} (h : r.1.length ≤ r.2.length)
    (s : List Char) : s.length ≤ (ruleStep s r).length := by
  unfold ruleStep
  by_cases hc : 0 < countOccs r.1 s
  · rw [if_pos hc]
    exact replaceAll_length_ge h s
  · rw [if_neg hc]

theorem foldl_length_ge :
    ∀ rules : List (List Char × List Char), (∀ r ∈ rules, r.1.length ≤ r.2.length) →
      ∀ s, s.length ≤ (List.foldl ruleStep s rules).length := by
  intro rules
  induction rules with
  | nil => intro _ s; exact Nat.le_refl _
  | cons r rest ih =>
    intro h s
    rw [List.foldl_cons]
    exact Nat.le_trans (ruleStep_length_ge (h r (List.mem_cons_self r rest)) s)
      (ih (fun r' h' => h r' (List.mem_cons_of_mem r h')) _)

theorem transform_length_ge (d : List Char) : d.length ≤ (transform d).length := by
  unfold transform applyConstrained applyCatchAll
  have h1 : d.length ≤ (applyGeneric d).length :=
    foldl_length_ge replacements (by decide) d
  have h2 := replaceAll_length_ge (p := iconPat) (r := iconRep) (by decide) (applyGeneric d)
  have h3 := replaceAll_length_ge (p := mechanicPat) (r := mechanicRep) (by decide)
    (replaceAll iconPat iconRep (applyGeneric d))
  have h4 := replaceAll_length_ge (p := instancePat) (r := instanceRep) (by decide)
    (replaceAll mechanicPat mechanicRep (replaceAll iconPat iconRep (applyGeneric d)))
  have h5 := replaceAll_length_ge (p := typeIconPat) (r := typeIconRep) (by decide)
    (replaceAll instancePat instanceRep (replaceAll mechanicPat mechanicRep
      (replaceAll iconPat iconRep (applyGeneric d))))
  by_cases hc : 0 < countOccs gearSym (replaceAll typeIconPat typeIconRep
      (replaceAll instancePat instanceRep (replaceAll mechanicPat mechanicRep
        (replaceAll iconPat iconRep (applyGeneric d)))))
  · rw [if_pos hc]
    have h6 := replaceAll_length_ge (p := gearSym) (r := mechMarkup) (by decide)
      (replaceAll typeIconPat typeIconRep (replaceAll instancePat instanceRep
        (replaceAll mechanicPat mechanicRep (replaceAll iconPat iconRep (applyGeneric d)))))
    omega
  · rw [if_neg hc]
    omega

/-! ### Identity of the tail phase when the gear symbol is absent -/

theorem tail_id {t : List Char} (hgear : ¬ gearSym <:+: t) :
    applyCatchAll (applyConstrained t) = t := by
  have hgi : gearSym <:+: iconPat := ⟨"icon: '".data, "'".data, by rfl⟩
  have hgm : gearSym <:+: mechanicPat := ⟨"mechanic: '".data, " Mechanics'".data, by rfl⟩
  have hgn : gearSym <:+: instancePat := ⟨": '".data, " Instance</span>'".data, by rfl⟩
  have hgt : gearSym <:+: typeIconPat :=
    ⟨"const typeIcon = cls.classType === 'character' ? '🎭' : '".data, "';".data, by rfl⟩
  have h2 : applyConstrained t = t := by
    unfold applyConstrained
    rw [replaceAll_of_no_occ t (fun h => hgear (hgi.trans h)),
      replaceAll_of_no_occ t (fun h => hgear (hgm.trans h)),
      replaceAll_of_no_occ t (fun h => hgear (hgn.trans h)),
      replaceAll_of_no_occ t (fun h => hgear (hgt.trans h))]
  rw [h2]
  unfold applyCatchAll
  rw [if_neg]
  have hz : countOccs gearSym t = 0 := (countOccs_eq_zero_iff (by decide) t).mpr hgear
  omega

/-- The link symbol (first table row). -/
def linkSym : List Char := "🔗".data

/-- The link markup (first table row). -/
def linkMarkup : List Char :=
  "<img src=\"icons/misc/link.svg\" alt=\"\" width=\"14\" height=\"14\" style=\"vertical-align: middle;\">".data

theorem applyGeneric_head_step {r0 : List Char × List Char}
    {rest : List (List Char × List Char)} (hsplit : replacements = r0 :: rest)
    {d : List Char} (hothers : ∀ r ∈ rest, ¬ r.1 <:+: ruleStep d r0) :
    applyGeneric d = ruleStep d r0 := by
  unfold applyGeneric
  rw [hsplit, List.foldl_cons]
  exact foldl_ruleStep_id rest
    (fun r hr => (goodTable_replacements.1 r (hsplit ▸ List.mem_cons_of_mem r0 hr)).1)
    _ hothers

/-- When the input holds no replaceable symbol other than `🔗`, the whole
pass is exactly the one link replacement. -/
theorem transform_only_link {d : List Char}
    (hothers : ∀ r ∈ replacements, r.1 ≠ linkSym → countOccs r.1 d = 0)
    (hgear : countOccs gearSym d = 0) :
    transform d = replaceAll linkSym linkMarkup d := by
  obtain ⟨rest, hsplit⟩ : ∃ rest, replacements = (linkSym, linkMarkup) :: rest := ⟨_, by rfl⟩
  have hrest_ne : ∀ r ∈ rest, r.1 ≠ linkSym := by
    have hchk : ∀ r ∈ replacements.tail, r.1 ≠ linkSym := by decide
    intro r hr
    refine hchk r ?_
    rw [hsplit]
    exact hr
  have hmem : ∀ r ∈ rest, r ∈ replacements := by
    intro r hr
    rw [hsplit]
    exact List.mem_cons_of_mem _ hr
  have hno_d : ∀ r ∈ rest, ¬ r.1 <:+: d := fun r hr =>
    (countOccs_eq_zero_iff (goodTable_replacements.1 r (hmem r hr)).1 d).mp
      (hothers r (hmem r hr) (hrest_ne r hr))
  have hno_step : ∀ r ∈ rest, ¬ r.1 <:+: ruleStep d (linkSym, linkMarkup) := by
    intro r hr
    have hg := goodTable_replacements.1 r (hmem r hr)
    refine not_occ_ruleStep hg.1 ?_ (by decide) (hno_d r hr)
    exact disj_of_ascii hg.2.1 (by decide)
  have h1 : applyGeneric d = ruleStep d (linkSym, linkMarkup) :=
    applyGeneric_head_step hsplit hno_step
  have hgear1 : ¬ gearSym <:+: ruleStep d (linkSym, linkMarkup) :=
    not_occ_ruleStep (by decide) (by decide) (by decide)
      ((countOccs_eq_zero_iff (by decide) d).mp hgear)
  show applyCatchAll (applyConstrained (applyGeneric d)) = _
  rw [h1, tail_id hgear1]
  unfold ruleStep
  by_cases hc : 0 < countOccs linkSym d
  · rw [if_pos hc]
  · rw [if_neg hc]
    have hz : countOccs linkSym d = 0 := by omega
    rw [replaceAll_of_no_occ d ((countOccs_eq_zero_iff (by decide) d).mp hz)]

theorem transform_only_link_length {d : List Char}
    (hN : countOccs linkSym d = 3)
    (hothers : ∀ r ∈ replacements, r.1 ≠ linkSym → countOccs r.1 d = 0)
    (hgear : countOccs gearSym d = 0) :
    (transform d).length = d.length + 3 * (linkMarkup.length - 1) := by
  rw [transform_only_link hothers hgear]
  have heq := replaceAll_length linkSym linkMarkup d
  rw [hN] at heq
  have hL : linkSym.length = 1 := by rfl
  rw [hL] at heq
  have hLM : 1 ≤ linkMarkup.length := by decide
  omega

/-! ### The file-level run: read, transform, write (source lines 11-115)

The script's I/O is: open and read `script.js` decoding UTF-8 (lines
12-13; Python's strict utf-8 codec raises `UnicodeDecodeError` on invalid
bytes, which aborts the script before the write at lines 114-115 is ever
reached), transform the buffer in memory, then overwrite the file with the
whole buffer in one write (lines 114-115).  The file state is the byte
content of `script.js`; the decoder below models Python's strict utf-8
codec (RFC 3629: no invalid lead or continuation bytes, no overlong
forms, no surrogates, nothing above U+10FFFF, no truncated sequences). -/

/-- UTF-8 encoding of one code point. -/
def utf8EncodeChar (c : Char) : List Nat :=
  if c.toNat < 128 then [c.toNat]
  else if c.toNat < 2048 then [192 + c.toNat / 64, 128 + c.toNat % 64]
  else if c.toNat < 65536 then
    [224 + c.toNat / 4096, 128 + (c.toNat / 64) % 64, 128 + c.toNat % 64]
  else
    [240 + c.toNat / 262144, 128 + (c.toNat / 4096) % 64,
     128 + (c.toNat / 64) % 64, 128 + c.toNat % 64]

/-- UTF-8 encoding of a text, as the script's final write produces it. -/
def utf8Encode : List Char → List Nat
  | [] => []
  | c :: cs => utf8EncodeChar c ++ utf8Encode cs

/-- Unicode scalar values: what the strict codec accepts as a code point. -/
def isScalar (n : Nat) : Bool :=
  decide (n < 1114112) && !(decide (55296 ≤ n) && decide (n < 57344))

/-- A UTF-8 continuation byte. -/
def contByte (b : Nat) : Bool := decide (128 ≤ b) && decide (b < 192)

/-- Strict UTF-8 decoder (Python's `utf-8` codec as used by `open` at
source line 12): `none` models the `UnicodeDecodeError` that aborts the
script. -/
def utf8Decode : List Nat → Option (List Char)
  | [] => some []
  | b :: bs =>
    if b < 128 then
      (utf8Decode bs).map (fun cs => Char.ofNat b :: cs)
    else if b < 194 then none
    else if b < 224 then
      match bs with
      | b2 :: rest =>
        if contByte b2 then
          (utf8Decode rest).map (fun cs => Char.ofNat ((b - 192) * 64 + (b2 - 128)) :: cs)
        else none
      | [] => none
    else if b < 240 then
      match bs with
      | b2 :: b3 :: rest =>
        if contByte b2 && contByte b3
            && decide (2048 ≤ (b - 224) * 4096 + (b2 - 128) * 64 + (b3 - 128))
            && isScalar ((b - 224) * 4096 + (b2 - 128) * 64 + (b3 - 128)) then
          (utf8Decode rest).map
            (fun cs => Char.ofNat ((b - 224) * 4096 + (b2 - 128) * 64 + (b3 - 128)) :: cs)
        else none
      | _ => none
    else if b < 245 then
      match bs with
      | b2 :: b3 :: b4 :: rest =>
        if contByte b2 && contByte b3 && contByte b4
            && decide (65536 ≤ (b - 240) * 262144 + (b2 - 128) * 4096 + (b3 - 128) * 64 + (b4 - 128))
            && isScalar ((b - 240) * 262144 + (b2 - 128) * 4096 + (b3 - 128) * 64 + (b4 - 128)) then
          (utf8Decode rest).map
            (fun cs => Char.ofNat ((b - 240) * 262144 + (b2 - 128) * 4096
              + (b3 - 128) * 64 + (b4 - 128)) :: cs)
        else none
      | _ => none
    else none

/-- One run of the script over the byte content of `script.js`: a failed
read (decode) aborts before the write is reached, so the file keeps its
bytes; a successful read is followed by the in-memory transform and one
full-buffer write. -/
def runScript (file : List Nat) : List Nat :=
  match utf8Decode file with
  | none => file
  | some content => utf8Encode (transform content)

/-- The mechanics markup as the constrained rules actually insert it:
Python's `re.sub` keeps the unknown non-letter escape `\"` verbatim in the
replacement template, so every quote carries a preceding backslash. -/
def escMechMarkup : List Char :=
  "<img src=\\\"icons/navigation/mechanics.svg\\\" alt=\\\"\\\" width=\\\"14\\\" height=\\\"14\\\" style=\\\"vertical-align: middle;\\\">".data

/-- The symbols the script deliberately never replaces (source lines 17-18
and 121). -/
def excludedSymbols : List (List Char) :=
  ["⚠️".data, "✅".data, "🔴".data, "🟠".data, "🟡".data, "🟢".data,
   "🥇".data, "🥈".data, "🥉".data, "🎭".data, "💥".data]

theorem countOccs_transform_single (a : Char)
    (hT : ∀ r ∈ replacements, cntChk a r.1 r.2 = true)
    (h1 : cntChk a iconPat iconRep = true) (h2 : cntChk a mechanicPat mechanicRep = true)
    (h3 : cntChk a instancePat instanceRep = true)
    (h4 : cntChk a typeIconPat typeIconRep = true)
    (h5 : cntChk a gearSym mechMarkup = true) (d : List Char) :
    countOccs [a] (transform d) = countOccs [a] d := by
  rw [countOccs_single, countOccs_single]
  exact count_transform_cntChk hT h1 h2 h3 h4 h5 d

/-! ### General counting lemmas for an arbitrary counted string -/

/-- Transfer of a proper suffix of the counted string's tail across
`replaceAll`, when no such suffix relates to the inserted text by prefix in
either direction. -/
theorem prefix_transfer_gen {p R m' : List Char}
    (hQ : ∀ k, k < m'.length → ¬ (m'.drop k) <+: R ∧ ¬ R <+: (m'.drop k)) :
    ∀ t, ∀ k, k < m'.length → (m'.drop k) <+: replaceAll p R t → (m'.drop k) <+: t := by
  intro t
  induction t using listStrongInd with
  | step t ih =>
    intro k hk hpre
    cases t with
    | nil =>
      rw [replaceAll_nil] at hpre
      exact absurd (List.prefix_nil.mp hpre) (drop_ne_nil_of_lt hk)
    | cons c cs =>
      rw [replaceAll_cons] at hpre
      by_cases hcond : p.isPrefixOf (c :: cs) ∧ p ≠ []
      · rw [if_pos hcond] at hpre
        exfalso
        rcases prefix_append_cases hpre with h1 | h1
        · exact (hQ k hk).1 h1
        · exact (hQ k hk).2 h1
      · rw [if_neg hcond] at hpre
        cases hw : m'.drop k with
        | nil => exact absurd hw (drop_ne_nil_of_lt hk)
        | cons x w' =>
          rw [hw] at hpre
          obtain ⟨hxc, hw'⟩ := List.cons_prefix_cons.mp hpre
          have hw'eq : w' = m'.drop (k+1) := by
            have ht : (m'.drop k).tail = m'.drop (k+1) := List.tail_drop m' k
            rw [hw] at ht
            simpa using ht
          by_cases hk1 : k + 1 < m'.length
          · have h2 := ih cs (by simp) (k+1) hk1 (hw'eq ▸ hw')
            exact List.cons_prefix_cons.mpr ⟨hxc, hw'eq ▸ h2⟩
          · have hnil : w' = [] := by
              rw [hw'eq]
              have : m'.length ≤ k + 1 := Nat.le_of_not_lt hk1
              exact List.drop_eq_nil_of_le this
            subst hnil
            exact List.cons_prefix_cons.mpr ⟨hxc, List.nil_prefix⟩

/-- Preservation of the count of an arbitrary string `qh :: q'` across
`replaceAll p R`, under prefix non-relation side conditions between the
counted string, the pattern and the inserted text. -/
theorem countOccs_replaceAll_presg {qh : Char} {q' p R : List Char}
    (hP : ∀ k, k < p.length → ¬ (p.drop k) <+: (qh :: q') ∧ ¬ (qh :: q') <+: (p.drop k))
    (hA : ∀ k, k < R.length → ¬ (R.drop k) <+: (qh :: q') ∧ ¬ (qh :: q') <+: (R.drop k))
    (hB : ∀ k, k < q'.length → ¬ (q'.drop k) <+: p ∧ ¬ p <+: (q'.drop k))
    (hQ : ∀ k, k < q'.length → ¬ (q'.drop k) <+: R ∧ ¬ R <+: (q'.drop k)) :
    ∀ s, countOccs (qh :: q') (replaceAll p R s) = countOccs (qh :: q') s := by
  intro s
  induction s using listStrongInd with
  | step s ih =>
    cases s with
    | nil => rfl
    | cons c cs =>
      by_cases hcond : p.isPrefixOf (c :: cs) ∧ p ≠ []
      · rw [replaceAll_cons, if_pos hcond]
        obtain ⟨t, ht⟩ := prefixOf_bridge.mp hcond.1
        have hdrop : List.drop p.length (c :: cs) = t := by
          rw [← ht]
          exact List.drop_left p t
        have htlen : t.length < (c :: cs).length := by
          have hlp := congrArg List.length ht
          have hp1 : 1 ≤ p.length := by
            cases hpn : p with
            | nil => exact absurd hpn hcond.2
            | cons y ys => simp
          simp only [List.length_append, List.length_cons] at hlp ⊢
          omega
        rw [hdrop, countOccs_append_of_noRel R hA (replaceAll p R t), ih t htlen, ← ht,
          countOccs_append_of_noRel p hP t]
      · rw [replaceAll_cons, if_neg hcond]
        by_cases hmpre : (qh :: q') <+: (c :: cs)
        · obtain ⟨hcl, hm'pre⟩ := List.cons_prefix_cons.mp hmpre
          obtain ⟨rest, hrest⟩ := hm'pre
          have hYeq : replaceAll p R cs = q' ++ replaceAll p R rest := by
            rw [← hrest]
            exact replaceAll_append_of_noRel q' hB rest
          have hrlen : rest.length < (c :: cs).length := by
            have := congrArg List.length hrest
            simp only [List.length_append, List.length_cons] at this ⊢
            omega
          rw [hYeq, ← hcl, ← List.cons_append,
            countOccs_self_append (List.cons_ne_nil qh q'), ih rest hrlen,
            ← hrest, ← List.cons_append, countOccs_self_append (List.cons_ne_nil qh q')]
        · have hnpre : ¬ (qh :: q') <+: (c :: replaceAll p R cs) := by
            intro hpre2
            obtain ⟨hcl, hm'pre⟩ := List.cons_prefix_cons.mp hpre2
            by_cases hm'nil : q' = []
            · subst hm'nil
              exact hmpre (List.cons_prefix_cons.mpr ⟨hcl, List.nil_prefix⟩)
            · have h0 : 0 < q'.length := by
                cases hmn : q' with
                | nil => exact absurd hmn hm'nil
                | cons y ys => simp
              have htr := prefix_transfer_gen hQ cs 0 h0 (by simpa using hm'pre)
              exact hmpre (List.cons_prefix_cons.mpr ⟨hcl, by simpa using htr⟩)
          rw [countOccs_cons, if_neg (fun hc2 => hnpre (prefixOf_bridge.mp hc2.1)),
            countOccs_cons (qh :: q') c cs,
            if_neg (fun hc2 => hmpre (prefixOf_bridge.mp hc2.1)),
            ih cs (by simp)]

/-- Each replaced occurrence of `p` adds exactly one occurrence of the
inserted string `qh :: q'`, for an arbitrary inserted string under prefix
non-relation side conditions (in particular the inserted string has no
nonempty border). -/
theorem countOccs_replaceAll_selfg {qh : Char} {q' p : List Char}
    (hP : ∀ k, k < p.length → ¬ (p.drop k) <+: (qh :: q') ∧ ¬ (qh :: q') <+: (p.drop k))
    (hB : ∀ k, k < q'.length → ¬ (q'.drop k) <+: p ∧ ¬ p <+: (q'.drop k))
    (hQ : ∀ k, k < q'.length → ¬ (q'.drop k) <+: (qh :: q') ∧ ¬ (qh :: q') <+: (q'.drop k)) :
    ∀ s, countOccs (qh :: q') (replaceAll p (qh :: q') s)
        = countOccs (qh :: q') s + countOccs p s := by
  intro s
  induction s using listStrongInd with
  | step s ih =>
    cases s with
    | nil => rfl
    | cons c cs =>
      by_cases hcond : p.isPrefixOf (c :: cs) ∧ p ≠ []
      · rw [replaceAll_cons, if_pos hcond, countOccs_cons p, if_pos hcond]
        obtain ⟨t, ht⟩ := prefixOf_bridge.mp hcond.1
        have hdrop : List.drop p.length (c :: cs) = t := by
          rw [← ht]
          exact List.drop_left p t
        have htlen : t.length < (c :: cs).length := by
          have hlp := congrArg List.length ht
          have hp1 : 1 ≤ p.length := by
            cases hpn : p with
            | nil => exact absurd hpn hcond.2
            | cons y ys => simp
          simp only [List.length_append, List.length_cons] at hlp ⊢
          omega
        rw [hdrop, countOccs_self_append (List.cons_ne_nil qh q'), ih t htlen, ← ht,
          countOccs_append_of_noRel p hP t]
        omega
      · rw [replaceAll_cons, if_neg hcond, countOccs_cons p, if_neg hcond]
        by_cases hmpre : (qh :: q') <+: (c :: cs)
        · obtain ⟨hcl, hm'pre⟩ := List.cons_prefix_cons.mp hmpre
          obtain ⟨rest, hrest⟩ := hm'pre
          have hYeq : replaceAll p (qh :: q') cs
              = q' ++ replaceAll p (qh :: q') rest := by
            rw [← hrest]
            exact replaceAll_append_of_noRel q' hB rest
          have hpeel : countOccs p (q' ++ rest) = countOccs p rest :=
            countOccs_append_of_noRel q' hB rest
          have hrlen : rest.length < (c :: cs).length := by
            have := congrArg List.length hrest
            simp only [List.length_append, List.length_cons] at this ⊢
            omega
          rw [hYeq, ← hcl, ← List.cons_append,
            countOccs_self_append (List.cons_ne_nil qh q'), ih rest hrlen]
          rw [← hrest, ← List.cons_append, countOccs_self_append (List.cons_ne_nil qh q'),
            hpeel]
          omega
        · have hnpre : ¬ (qh :: q') <+: (c :: replaceAll p (qh :: q') cs) := by
            intro hpre2
            obtain ⟨hcl, hm'pre⟩ := List.cons_prefix_cons.mp hpre2
            by_cases hm'nil : q' = []
            · subst hm'nil
              exact hmpre (List.cons_prefix_cons.mpr ⟨hcl, List.nil_prefix⟩)
            · have h0 : 0 < q'.length := by
                cases hmn : q' with
                | nil => exact absurd hmn hm'nil
                | cons y ys => simp
              have htr := prefix_transfer_gen hQ cs 0 h0 (by simpa using hm'pre)
              exact hmpre (List.cons_prefix_cons.mpr ⟨hcl, by simpa using htr⟩)
          rw [countOccs_cons, if_neg (fun hc2 => hnpre (prefixOf_bridge.mp hc2.1)),
            countOccs_cons (qh :: q') c cs,
            if_neg (fun hc2 => hmpre (prefixOf_bridge.mp hc2.1)),
            ih cs (by simp)]

/-- Executable check of all prefix non-relation side conditions for carrying
the count of `q` unchanged across `replaceAll p R`. -/
def presgChk (q p R : List Char) : Bool :=
  match q with
  | [] => false
  | _ :: q' => noRelB q p && noRelB q R && noRelB p q' && noRelB R q'

/-- Executable check of the side conditions under which `replaceAll p q`
adds exactly one `q` occurrence per `p` occurrence. -/
def selfgChk (q p : List Char) : Bool :=
  match q with
  | [] => false
  | _ :: q' => noRelB q p && noRelB p q' && noRelB q q'

theorem countOccs_replaceAll_presgChk {q p R : List Char} (h : presgChk q p R = true)
    (s : List Char) : countOccs q (replaceAll p R s) = countOccs q s := by
  cases q with
  | nil => simp [presgChk] at h
  | cons qh q' =>
    simp only [presgChk, Bool.and_eq_true] at h
    exact countOccs_replaceAll_presg (noRelB_spec p h.1.1.1) (noRelB_spec R h.1.1.2)
      (noRelB_spec q' h.1.2) (noRelB_spec q' h.2) s

theorem countOccs_replaceAll_selfgChk {q p : List Char} (h : selfgChk q p = true)
    (s : List Char) :
    countOccs q (replaceAll p q s) = countOccs q s + countOccs p s := by
  cases q with
  | nil => simp [selfgChk] at h
  | cons qh q' =>
    simp only [selfgChk, Bool.and_eq_true] at h
    exact countOccs_replaceAll_selfg (noRelB_spec p h.1.1) (noRelB_spec q' h.1.2)
      (noRelB_spec q' h.2) s

theorem countOccs_ruleStep_presgChk {q : List Char} {r : List Char × List Char}
    (h : presgChk q r.1 r.2 = true) (s : List Char) :
    countOccs q (ruleStep s r) = countOccs q s := by
  unfold ruleStep
  by_cases hc : 0 < countOccs r.1 s
  · rw [if_pos hc]
    exact countOccs_replaceAll_presgChk h s
  · rw [if_neg hc]

theorem countOccs_foldl_presgChk {q : List Char} :
    ∀ rules : List (List Char × List Char), (∀ r ∈ rules, presgChk q r.1 r.2 = true) →
      ∀ s, countOccs q (List.foldl ruleStep s rules) = countOccs q s := by
  intro rules
  induction rules with
  | nil => intro _ s; rfl
  | cons r rest ih =>
    intro h s
    rw [List.foldl_cons, ih (fun r' hr' => h r' (List.mem_cons_of_mem r hr'))]
    exact countOccs_ruleStep_presgChk (h r (List.mem_cons_self r rest)) s

theorem countOccs_applyCatchAll_presg {q : List Char}
    (h : presgChk q gearSym mechMarkup = true) (s : List Char) :
    countOccs q (applyCatchAll s) = countOccs q s := by
  unfold applyCatchAll
  by_cases hc : 0 < countOccs gearSym s
  · rw [if_pos hc]
    exact countOccs_replaceAll_presgChk h s
  · rw [if_neg hc]

/-- One-pass table check for carrying the count of `q` across the whole
generic phase. -/
def tblChk (q : List Char) : Bool :=
  replacements.all (fun r => presgChk q r.1 r.2)

theorem tblChk_spec (q : List Char) (h : tblChk q = true) :
    ∀ r ∈ replacements, presgChk q r.1 r.2 = true := by
  simp only [tblChk, List.all_eq_true] at h
  exact h

/-! ### Exact occurrence bookkeeping for the constrained rules -/

/-- Any string containing the gear symbol has no occurrence left after the
full pass. -/
theorem countOccs_transform_patzero {P : List Char} (hne : P ≠ [])
    (hg : gearSym <:+: P) (d : List Char) :
    countOccs P (transform d) = 0 := by
  rw [countOccs_eq_zero_iff hne]
  intro hinf
  exact transform_no_gear_occ d (hg.trans hinf)

/-- Across the whole pass, the count of the icon rule's rewritten literal
grows by exactly the count of its pattern in the input. -/
theorem countOccs_transform_iconRep (d : List Char) :
    countOccs iconRep (transform d) = countOccs iconRep d + countOccs iconPat d := by
  have hg1 := tblChk_spec iconRep (by rfl)
  have hg2 := tblChk_spec iconPat (by rfl)
  have hs : selfgChk iconRep iconPat = true := by rfl
  have h2 : presgChk iconRep mechanicPat mechanicRep = true := by rfl
  have h3 : presgChk iconRep instancePat instanceRep = true := by rfl
  have h4 : presgChk iconRep typeIconPat typeIconRep = true := by rfl
  have h5 : presgChk iconRep gearSym mechMarkup = true := by rfl
  unfold transform
  rw [countOccs_applyCatchAll_presg h5]
  unfold applyConstrained
  rw [countOccs_replaceAll_presgChk h4, countOccs_replaceAll_presgChk h3,
    countOccs_replaceAll_presgChk h2, countOccs_replaceAll_selfgChk hs]
  unfold applyGeneric
  rw [countOccs_foldl_presgChk replacements hg1 d,
    countOccs_foldl_presgChk replacements hg2 d]

/-- Across the whole pass, the count of the mechanic rule's rewritten
literal grows by exactly the count of its pattern in the input. -/
theorem countOccs_transform_mechanicRep (d : List Char) :
    countOccs mechanicRep (transform d)
      = countOccs mechanicRep d + countOccs mechanicPat d := by
  have hg1 := tblChk_spec mechanicRep (by rfl)
  have hg2 := tblChk_spec mechanicPat (by rfl)
  have hi1 : presgChk mechanicRep iconPat iconRep = true := by rfl
  have hi2 : presgChk mechanicPat iconPat iconRep = true := by rfl
  have hs : selfgChk mechanicRep mechanicPat = true := by rfl
  have h3 : presgChk mechanicRep instancePat instanceRep = true := by rfl
  have h4 : presgChk mechanicRep typeIconPat typeIconRep = true := by rfl
  have h5 : presgChk mechanicRep gearSym mechMarkup = true := by rfl
  unfold transform
  rw [countOccs_applyCatchAll_presg h5]
  unfold applyConstrained
  rw [countOccs_replaceAll_presgChk h4, countOccs_replaceAll_presgChk h3,
    countOccs_replaceAll_selfgChk hs, countOccs_replaceAll_presgChk hi1,
    countOccs_replaceAll_presgChk hi2]
  unfold applyGeneric
  rw [countOccs_foldl_presgChk replacements hg1 d,
    countOccs_foldl_presgChk replacements hg2 d]

/-- Across the whole pass, the count of the typeIcon rule's rewritten
literal grows by exactly the count of its pattern in the input. -/
theorem countOccs_transform_typeIconRep (d : List Char) :
    countOccs typeIconRep (transform d)
      = countOccs typeIconRep d + countOccs typeIconPat d := by
  have hg1 := tblChk_spec typeIconRep (by rfl)
  have hg2 := tblChk_spec typeIconPat (by rfl)
  have hi1 : presgChk typeIconRep iconPat iconRep = true := by rfl
  have hi2 : presgChk typeIconPat iconPat iconRep = true := by rfl
  have hm1 : presgChk typeIconRep mechanicPat mechanicRep = true := by rfl
  have hm2 : presgChk typeIconPat mechanicPat mechanicRep = true := by rfl
  have hn1 : presgChk typeIconRep instancePat instanceRep = true := by rfl
  have hn2 : presgChk typeIconPat instancePat instanceRep = true := by rfl
  have hs : selfgChk typeIconRep typeIconPat = true := by rfl
  have h5 : presgChk typeIconRep gearSym mechMarkup = true := by rfl
  unfold transform
  rw [countOccs_applyCatchAll_presg h5]
  unfold applyConstrained
  rw [countOccs_replaceAll_selfgChk hs,
    countOccs_replaceAll_presgChk hn1, countOccs_replaceAll_presgChk hm1,
    countOccs_replaceAll_presgChk hi1,
    countOccs_replaceAll_presgChk hn2, countOccs_replaceAll_presgChk hm2,
    countOccs_replaceAll_presgChk hi2]
  unfold applyGeneric
  rw [countOccs_foldl_presgChk replacements hg1 d,
    countOccs_foldl_presgChk replacements hg2 d]

/-! ### The claims -/

/-- C1: the full transformation pass is idempotent: applying the pass
(generic replacements, the four constrained substitutions and the
catch-all) to an already fully transformed document leaves it unchanged,
for every document. -/
theorem claim1_full_pass_idempotent (d : List Char) :
    transform (transform d) = transform d :=
  transform_transform d

/-- C2 counterexample: the claim fails as stated for the pair
`(📊, chart-line-up markup)` on the document `📈`: the input holds zero
`📊`, yet the output holds one more occurrence of that pair's markup than
the input, because `📈` maps to the same markup string. -/
theorem claim2_counterexample :
    ("📊".data,
      "<img src=\"icons/misc/chart-line-up.svg\" alt=\"\" width=\"14\" height=\"14\" style=\"vertical-align: middle;\">".data)
      ∈ replacements ∧
    countOccs "📊".data "📈".data = 0 ∧
    ¬ (countOccs "<img src=\"icons/misc/chart-line-up.svg\" alt=\"\" width=\"14\" height=\"14\" style=\"vertical-align: middle;\">".data
        (transform "📈".data)
      = countOccs "<img src=\"icons/misc/chart-line-up.svg\" alt=\"\" width=\"14\" height=\"14\" style=\"vertical-align: middle;\">".data
        "📈".data + 0) := by
  refine ⟨by decide, by rfl, by decide⟩

/-- C2 (amended): for every (symbol, markup) pair of the generic table and
every document, the output holds zero occurrences of the symbol, and the
markup's occurrence count grows by exactly the total number of occurrences
of all table symbols mapping to that same markup string — which is exactly
N for every pair except `📊` and `📈`, which share one markup. -/
theorem claim2_amended_completeness :
    ∀ r ∈ replacements, ∀ d : List Char,
      countOccs r.1 (transform d) = 0 ∧
      countOccs r.2 (transform d)
        = countOccs r.2 d + (List.map (fun e => countOccs e.1 d)
            (List.filter (fun e => e.2 == r.2) replacements)).sum :=
  fun r hr d => ⟨transform_pat_zero hr d, transform_markup_count hr d⟩

/-- Witness for C2 (amended) at the link rule and a concrete document. -/
theorem claim2_amended_completeness_witness :
    ("🔗".data, linkMarkup) ∈ replacements ∧
    (countOccs "🔗".data (transform "a🔗b".data) = 0 ∧
     countOccs linkMarkup (transform "a🔗b".data)
       = countOccs linkMarkup "a🔗b".data + (List.map (fun e => countOccs e.1 "a🔗b".data)
           (List.filter (fun e => e.2 == linkMarkup) replacements)).sum) :=
  ⟨by decide, claim2_amended_completeness ("🔗".data, linkMarkup) (by decide) "a🔗b".data⟩

/-- C3: context sensitivity of the mechanics symbol, for every input
document: each occurrence of the literal `icon: '⚙️'` becomes the rewritten
literal `icon: '` markup `'` with the key name and both quotes preserved —
the pattern's count drops to zero while the rewritten literal's count grows
by exactly the pattern's count in the input — and likewise each occurrence
of `mechanic: '⚙️ Mechanics'` has only the symbol replaced, preserving the
trailing " Mechanics" and the quotes; on the two literals themselves the
pass produces exactly the rewritten forms (the inserted markup being the
escaped variant the `re.sub` templates produce). -/
theorem claim3_context_sensitivity (d : List Char) :
    (countOccs iconPat (transform d) = 0 ∧
     iconRep = "icon: '".data ++ escMechMarkup ++ "'".data ∧
     countOccs iconRep (transform d) = countOccs iconRep d + countOccs iconPat d) ∧
    (countOccs mechanicPat (transform d) = 0 ∧
     mechanicRep = "mechanic: '".data ++ escMechMarkup ++ " Mechanics'".data ∧
     countOccs mechanicRep (transform d)
       = countOccs mechanicRep d + countOccs mechanicPat d) ∧
    transform "icon: '⚙️'".data = "icon: '".data ++ escMechMarkup ++ "'".data ∧
    transform "mechanic: '⚙️ Mechanics'".data
      = "mechanic: '".data ++ escMechMarkup ++ " Mechanics'".data :=
  ⟨⟨countOccs_transform_patzero (by decide) ⟨"icon: '".data, "'".data, rfl⟩ d, by rfl,
      countOccs_transform_iconRep d⟩,
    ⟨countOccs_transform_patzero (by decide) ⟨"mechanic: '".data, " Mechanics'".data, rfl⟩ d,
      by rfl, countOccs_transform_mechanicRep d⟩,
    by decide, by decide⟩

/-- C4: exclusion-branch preservation, for every input document: each
occurrence of the ternary `typeIcon` literal becomes its rewritten form, in
which only the second branch's `⚙️` is replaced by markup — the literal's
count drops to zero while the rewritten form's count grows by exactly the
literal's count in the input — the `'🎭'` of the first branch stays in
place in the rewritten form, and the pass never adds or removes a `🎭`
anywhere; on the literal itself the pass produces exactly the rewritten
form. -/
theorem claim4_exclusion_branch (d : List Char) :
    countOccs typeIconPat (transform d) = 0 ∧
    typeIconRep
      = "const typeIcon = cls.classType === 'character' ? '🎭' : '".data
        ++ escMechMarkup ++ "';".data ∧
    countOccs typeIconRep (transform d)
      = countOccs typeIconRep d + countOccs typeIconPat d ∧
    (transform d).count '🎭' = d.count '🎭' ∧
    transform typeIconPat = typeIconRep :=
  ⟨countOccs_transform_patzero (by decide)
      ⟨"const typeIcon = cls.classType === 'character' ? '🎭' : '".data, "';".data, rfl⟩ d,
    by rfl,
    countOccs_transform_typeIconRep d,
    count_transform_cntChk (by decide) (by decide) (by decide) (by decide) (by decide)
      (by decide) d,
    by decide⟩

/-- C5: catch-all safety net: after the full pass no raw occurrence of the
gear symbol remains, for every document. -/
theorem claim5_catchall_safety (d : List Char) :
    countOccs gearSym (transform d) = 0 :=
  transform_gear_zero d

/-- C6: excluded-glyph invariance: each symbol of the fixed exclusion set
occurs in the output exactly as often as in the input, for every document. -/
theorem claim6_excluded_invariance :
    ∀ x ∈ excludedSymbols, ∀ d : List Char,
      countOccs x (transform d) = countOccs x d := by
  intro x hx d
  simp only [excludedSymbols, List.mem_cons, List.not_mem_nil, or_false] at hx
  rcases hx with rfl | rfl | rfl | rfl | rfl | rfl | rfl | rfl | rfl | rfl | rfl
  · exact countOccs_transform_pres2 (by decide) (by decide) (by decide) (by decide)
      (by decide) (by decide) d
  · exact countOccs_transform_single '✅' (by decide) (by decide) (by decide)
      (by decide) (by decide) (by decide) d
  · exact countOccs_transform_single '🔴' (by decide) (by decide) (by decide)
      (by decide) (by decide) (by decide) d
  · exact countOccs_transform_single '🟠' (by decide) (by decide) (by decide)
      (by decide) (by decide) (by decide) d
  · exact countOccs_transform_single '🟡' (by decide) (by decide) (by decide)
      (by decide) (by decide) (by decide) d
  · exact countOccs_transform_single '🟢' (by decide) (by decide) (by decide)
      (by decide) (by decide) (by decide) d
  · exact countOccs_transform_single '🥇' (by decide) (by decide) (by decide)
      (by decide) (by decide) (by decide) d
  · exact countOccs_transform_single '🥈' (by decide) (by decide) (by decide)
      (by decide) (by decide) (by decide) d
  · exact countOccs_transform_single '🥉' (by decide) (by decide) (by decide)
      (by decide) (by decide) (by decide) d
  · exact countOccs_transform_single '🎭' (by decide) (by decide) (by decide)
      (by decide) (by decide) (by decide) d
  · exact countOccs_transform_single '💥' (by decide) (by decide) (by decide)
      (by decide) (by decide) (by decide) d

/-- Witness for C6 at the theme mask and the `typeIcon` literal, where the
pattern containing `🎭` actually fires. -/
theorem claim6_excluded_invariance_witness :
    "🎭".data ∈ excludedSymbols ∧
    countOccs "🎭".data (transform typeIconPat) = countOccs "🎭".data typeIconPat :=
  ⟨by decide, claim6_excluded_invariance _ (by decide) typeIconPat⟩

/-- C7 counterexample: the recorded sizes are Python `len` values, i.e.
code-point counts, not UTF-8 byte lengths: on a document of three `🔗` the
recorded original size is 3, not the 12 bytes of its UTF-8 form, and the
reported difference is 3·(93−1) = 276 (the link markup being 93 code
points), not 3·(93−4) = 267 as the byte-length reading predicts. -/
theorem claim7_counterexample :
    originalLength "🔗🔗🔗".data = 3 ∧
    utf8Length "🔗🔗🔗".data = 12 ∧
    originalLength "🔗🔗🔗".data ≠ utf8Length "🔗🔗🔗".data ∧
    difference "🔗🔗🔗".data
      ≠ 3 * ((utf8Length linkMarkup : Int) - (utf8Length "🔗".data : Int)) :=
  ⟨by rfl, by rfl, by decide, by decide⟩

/-- C7 (amended): the recorded original size is the number of code points
of the input, and for an input with exactly three `🔗` and no other
replaceable symbol the reported difference is 3·(markup length in code
points − 1), the symbol being one code point. -/
theorem claim7_amended_sizes (d : List Char) :
    originalLength d = d.length ∧
    (countOccs linkSym d = 3 →
      (∀ r ∈ replacements, r.1 ≠ linkSym → countOccs r.1 d = 0) →
      countOccs gearSym d = 0 →
      difference d = 3 * ((linkMarkup.length : Int) - 1)) := by
  refine ⟨rfl, fun h1 h2 h3 => ?_⟩
  have hlen := transform_only_link_length h1 h2 h3
  unfold difference newLength originalLength
  rw [hlen]
  have hLM : 1 ≤ linkMarkup.length := by decide
  omega

/-- Witness for C7 (amended) on a concrete document with three links. -/
theorem claim7_amended_sizes_witness :
    countOccs linkSym "x🔗🔗🔗".data = 3 ∧
    (∀ r ∈ replacements, r.1 ≠ linkSym → countOccs r.1 "x🔗🔗🔗".data = 0) ∧
    countOccs gearSym "x🔗🔗🔗".data = 0 ∧
    difference "x🔗🔗🔗".data = 3 * ((linkMarkup.length : Int) - 1) :=
  ⟨by decide, by decide, by decide,
    (claim7_amended_sizes "x🔗🔗🔗".data).2 (by decide) (by decide) (by decide)⟩

/-- C8: no mutation on failure: when decoding the file fails, the run
leaves the byte content untouched (the script aborts before any write);
a write happens only after a successful read and the whole in-memory
transform, as one full-buffer overwrite. -/
theorem claim8_no_mutation_on_failure (file : List Nat) :
    (utf8Decode file = none → runScript file = file) ∧
    (∀ content, utf8Decode file = some content →
      runScript file = utf8Encode (transform content)) := by
  constructor
  · intro h
    unfold runScript
    rw [h]
  · intro content h
    unfold runScript
    rw [h]

/-- Witness for C8 on a concretely undecodable byte (a lone continuation
byte). -/
theorem claim8_no_mutation_on_failure_witness :
    utf8Decode [255] = none ∧ runScript [255] = [255] :=
  ⟨by rfl, (claim8_no_mutation_on_failure [255]).1 (by rfl)⟩

/-- C9 counterexample: the backslash-quote escapes do not resolve to plain
quotes, so on `icon: '⚙️'` the constrained rule does not insert the
catch-all's markup string. -/
theorem claim9_counterexample :
    transform "icon: '⚙️'".data ≠ "icon: '".data ++ mechMarkup ++ "'".data := by
  decide

/-- C9 (amended): each constrained `re.sub` is a plain literal substring
substitution (its pattern denotes a literal string), but Python keeps the
`\"` escapes of the replacement templates verbatim, so the four rules
insert the escaped markup variant, which differs from the catch-all's
markup string exactly by the backslashes before the quotes. -/
theorem claim9_amended_escapes :
    transform "icon: '⚙️'".data = "icon: '".data ++ escMechMarkup ++ "'".data ∧
    iconRep = "icon: '".data ++ escMechMarkup ++ "'".data ∧
    mechanicRep = "mechanic: '".data ++ escMechMarkup ++ " Mechanics'".data ∧
    instanceRep = ": '".data ++ escMechMarkup ++ " Instance</span>'".data ∧
    typeIconRep
      = "const typeIcon = cls.classType === 'character' ? '🎭' : '".data
        ++ escMechMarkup ++ "';".data ∧
    escMechMarkup ≠ mechMarkup :=
  ⟨by decide, by rfl, by rfl, by rfl, by rfl, by decide⟩

/-- C10: the transformed content is never shorter than the input, and the
reported signed difference is never negative, for every document. -/
theorem claim10_growth (d : List Char) :
    d.length ≤ newLength d ∧ 0 ≤ difference d := by
  have h := transform_length_ge d
  refine ⟨h, ?_⟩
  unfold difference newLength originalLength
  omega
